import Mathlib

/-!
Shallow embedding of the `matrix` repository's row-reduction engine and its
derived operations (determinant, rank, inverse), over the exact field ℚ.

A matrix is represented exactly as in the source: an ordered list of column
vectors, addressed as `matrix[column][row]`.  Fatal assertions in the source
(`assert!`) are modelled by `Option`: a result of `none` means the assertion
fired (the operation aborted); `some` is normal completion.

Sources embedded:
  - src/matrix/functions/row_echelon.rs : RowEchelonOperation, swap, multiply,
    divide, row_add, apply, apply_multiple, RowEchelonDetails,
    reduced_row_echelon_form, row_echelon, row_echelon_with_details, rank
    (position-of-first-zero-row variant), is_row_echelon_form,
    nullify_rows_below_pivot, scale_pivot_row, next_pivot.
  - src/matrix/functions/rank.rs : rank (tracked-pivot-count variant; the file
    set carries both variants, so the second is embedded under the name
    rank_from_position).
  - src/matrix/functions/determinant.rs : determinant,
    determinant_for_dimension_4_and_more.
  - src/matrix/functions/inverse.rs : Error, inverse, back_substitution,
    nullify_rows_above_pivot.
  - src/vector/linear_combination.rs and src/matrix/arithmetics.rs :
    linear_combination, mul_mat.
  - src/rows.rs : as_rows (row-major view of the column list).
-/

namespace Lin

/-- A matrix: an ordered list of equal-length column vectors over ℚ.
Addressing is `matrix[column][row]`, as in the source. -/
abbrev Mx := List (List ℚ)

/-- Entry read `self[col][row]`.  Out-of-range reads default to 0; the engine
only ever reads in range (the source would panic out of range). -/
def entry (m : Mx) (c r : Nat) : ℚ := (m.getD c []).getD r 0

/-- Modelled from the spec: column count query — the outer sequence length
(`Matrix::cols()` is called by the engine but its definition is not in the
source snapshot; the spec fixes the data model: "the column count equals the
outer sequence length"). -/
def cols (m : Mx) : Nat := m.length

/-- Modelled from the spec: row count query — every column has the same
length (the row count), and a matrix with zero columns has zero rows by
convention (`Matrix::rows()` is called by the engine but its definition is
not in the source snapshot). -/
def rows (m : Mx) : Nat := (m.headD []).length

/-- Modelled from the spec: squareness test used by the determinant/inverse
contract ("requires the matrix be square"): row count equals column count. -/
def is_square (m : Mx) : Bool := rows m == cols m

/-- Modelled from the spec: identity-matrix construction of a given size
(`Matrix::identity(n)` is called by `inverse` but its definition is not in
the source snapshot). Column `c` holds 1 at row `c` and 0 elsewhere. -/
def identity (n : Nat) : Mx :=
  (List.range n).map (fun c => (List.range n).map (fun r => if r = c then (1 : ℚ) else 0))

/-- Well-formedness (the container-layer invariant): `C` columns, each of
length `R`. -/
def WF (m : Mx) (R C : Nat) : Prop := m.length = C ∧ ∀ col ∈ m, col.length = R

instance (m : Mx) (R C : Nat) : Decidable (WF m R C) := by
  unfold WF; infer_instance

/-- RowEchelonOperation from src/matrix/functions/row_echelon.rs: a tagged
elementary row operation (the source's spelling `Multipication` is kept). -/
inductive RowEchelonOperation where
  | Swap (row_a row_b : Nat)
  | Multipication (row : Nat) (k : ℚ)
  | Division (row : Nat) (k : ℚ)
  | RowAddition (row_a row_b : Nat) (k : ℚ)
  deriving DecidableEq, Repr

/-- Matrix::swap — exchanges all entries of the two rows across every column,
returning the performed operation. -/
def swap (m : Mx) (row_a row_b : Nat) : Mx × RowEchelonOperation :=
  (m.map (fun col => (col.set row_a (col.getD row_b 0)).set row_b (col.getD row_a 0)),
   .Swap row_a row_b)

/-- Matrix::multiply — multiplies every entry of `row` by `scalar`. -/
def multiply (m : Mx) (row : Nat) (scalar : ℚ) : Mx × RowEchelonOperation :=
  (m.map (fun col => col.set row (col.getD row 0 * scalar)), .Multipication row scalar)

/-- Matrix::divide — divides every entry of `row` by `scalar`. -/
def divide (m : Mx) (row : Nat) (scalar : ℚ) : Mx × RowEchelonOperation :=
  (m.map (fun col => col.set row (col.getD row 0 / scalar)), .Division row scalar)

/-- Matrix::row_add — `row_to_modify[col] += row_to_add[col] * scalar` for
every column. -/
def row_add (m : Mx) (row_to_modify row_to_add : Nat) (scalar : ℚ) :
    Mx × RowEchelonOperation :=
  (m.map (fun col =>
      col.set row_to_modify (col.getD row_to_modify 0 + col.getD row_to_add 0 * scalar)),
   .RowAddition row_to_modify row_to_add scalar)

/-- Matrix::apply — dispatch a stored operation back onto a matrix. -/
def apply (m : Mx) (op : RowEchelonOperation) : Mx :=
  match op with
  | .Swap a b => (swap m a b).1
  | .Multipication r k => (multiply m r k).1
  | .Division r k => (divide m r k).1
  | .RowAddition a b k => (row_add m a b k).1

/-- Matrix::apply_multiple — replay a whole operation log in order. -/
def apply_multiple (m : Mx) (ops : List RowEchelonOperation) : Mx :=
  ops.foldl apply m

/-- RowEchelonDetails — the accumulated result of one reduction pass. -/
structure RowEchelonDetails where
  tracked_pivots : List ℚ
  operations : List RowEchelonOperation
  deriving DecidableEq, Repr

/-- Inner scan of Matrix::next_pivot over one column: keep the first non-zero
candidate, replacing it whenever a strictly greater entry appears (the source
compares `current > pivot` on raw signed values). -/
def next_pivot_in_col (m : Mx) (col : Nat) (saved : Option (Nat × Nat)) :
    List Nat → Option (Nat × Nat)
  | [] => saved
  | r :: rs =>
    let current := entry m col r
    if current = 0 then next_pivot_in_col m col saved rs
    else
      match saved with
      | some (pc, pr) =>
        if entry m pc pr < current then next_pivot_in_col m col (some (col, r)) rs
        else next_pivot_in_col m col saved rs
      | none => next_pivot_in_col m col (some (col, r)) rs

/-- Outer scan of Matrix::next_pivot over the columns: the first column whose
scan yields a candidate wins. -/
def next_pivot_cols (m : Mx) (min_row_index : Nat) : List Nat → Option (Nat × Nat)
  | [] => none
  | c :: cs =>
    match next_pivot_in_col m c none
        (List.range' min_row_index (rows m - min_row_index)) with
    | some p => some p
    | none => next_pivot_cols m min_row_index cs

/-- Matrix::next_pivot — scan all columns left to right; within a column scan
rows `min_row_index..rows`, skipping zero entries. -/
def next_pivot (m : Mx) (min_row_index : Nat) : Option (Nat × Nat) :=
  next_pivot_cols m min_row_index (List.range (cols m))

/-- Loop body of Matrix::nullify_rows_below_pivot over the listed rows:
rows whose entry in the pivot column is non-zero get
`row_add(row, pivot_row, -factor)`, and the operations are collected in
order. -/
def nullify_below_go (pc pr : Nat) (m : Mx) :
    List Nat → Mx × List RowEchelonOperation
  | [] => (m, [])
  | r :: rs =>
    let factor := entry m pc r
    if factor = 0 then nullify_below_go pc pr m rs
    else
      let s := row_add m r pr (-factor)
      let rest := nullify_below_go pc pr s.1 rs
      (rest.1, s.2 :: rest.2)

/-- Matrix::nullify_rows_below_pivot — zero the entries below the pivot
(rows `pivot_row + 1 .. rows`). -/
def nullify_rows_below_pivot (m : Mx) (pc pr : Nat) :
    Mx × List RowEchelonOperation :=
  nullify_below_go pc pr m (List.range' (pr + 1) (rows m - (pr + 1)))

/-- Loop body of Matrix::reduced_row_echelon_form over the remaining
`row_index` values.  `none` models the fatal assertion
`assert!(pivot != K::default())` inside scale_pivot_row; an exhausted list or
an absent next pivot ends the loop normally. -/
def rref_go (m : Mx) (d : RowEchelonDetails) :
    List Nat → Option (Mx × RowEchelonDetails)
  | [] => some (m, d)
  | i :: rest =>
    match next_pivot m i with
    | none => some (m, d)
    | some (pc, pr) =>
      let step :=
        if pr ≠ i then
          let s := swap m pr i
          (s.1, { d with operations := d.operations ++ [s.2] })
        else (m, d)
      let m1 := step.1
      let piv := entry m1 pc i
      let d2 := { step.2 with tracked_pivots := step.2.tracked_pivots ++ [piv] }
      if piv = 0 then none
      else
        let s2 := divide m1 i piv
        let d3 := { d2 with operations := d2.operations ++ [s2.2] }
        if i < rows s2.1 - 1 then
          let s3 := nullify_rows_below_pivot s2.1 pc i
          rref_go s3.1 { d3 with operations := d3.operations ++ s3.2 } rest
        else rref_go s2.1 d3 rest

/-- Matrix::reduced_row_echelon_form — forward elimination with partial
pivoting, recording details.  An empty matrix (zero columns) is returned
unchanged with empty details. -/
def reduced_row_echelon_form (m : Mx) : Option (Mx × RowEchelonDetails) :=
  if m.isEmpty then some (m, ⟨[], []⟩)
  else rref_go m ⟨[], []⟩ (List.range (min (rows m) (cols m)))

/-- Matrix::row_echelon — the reduction without the details record. -/
def row_echelon (m : Mx) : Option Mx :=
  (reduced_row_echelon_form m).map (fun p => p.1)

/-- Matrix::row_echelon_with_details. -/
def row_echelon_with_details (m : Mx) : Option (Mx × RowEchelonDetails) :=
  reduced_row_echelon_form m

/-- Row-major view of the column list, as produced by as_rows (src/rows.rs):
row `r` collects entry `r` of every column in column order; the row count is
the first column's length. -/
def rowsOf (m : Mx) : List (List ℚ) :=
  (List.range (rows m)).map (fun r => m.map (fun col => col.getD r 0))

/-- Matrix::rank from src/matrix/functions/rank.rs: the number of tracked
pivots recorded by row_echelon_with_details. -/
def rank (m : Mx) : Option Nat :=
  (row_echelon_with_details m).map (fun p => p.2.tracked_pivots.length)

/-- Matrix::rank from src/matrix/functions/row_echelon.rs: the position of
the first all-zero row of row_echelon(self), or the row count if none. -/
def rank_from_position (m : Mx) : Option Nat :=
  (row_echelon m).map (fun red =>
    ((rowsOf red).findIdx? (fun row => row.all (fun v => decide (v = 0)))).getD (rows m))

/-- Closure get_first_non_zero_index of Matrix::is_row_echelon_form: position
of the first entry different from the additive identity. -/
def first_non_zero_index (row : List ℚ) : Option Nat :=
  row.findIdx? (fun v => decide (v ≠ 0))

/-- While-loop of Matrix::is_row_echelon_form over the remaining rows, with
the last recorded leading-index. -/
def is_ref_go (saved : Nat) : List (List ℚ) → Bool
  | [] => true
  | row :: rest =>
    match first_non_zero_index row with
    | none => rest.all (fun r => r.all (fun v => decide (v = 0)))
    | some idx => if idx ≤ saved then false else is_ref_go idx rest

/-- Matrix::is_row_echelon_form — leading non-zero indices strictly increase
downward, and once an all-zero row appears every later row is all-zero. -/
def is_row_echelon_form (m : Mx) : Bool :=
  if rows m = 0 then true
  else
    match rowsOf m with
    | [] => true
    | row0 :: rest =>
      match first_non_zero_index row0 with
      | none => rest.all (fun r => r.all (fun v => decide (v = 0)))
      | some idx => is_ref_go idx rest

/-- Test used by determinant_for_dimension_4_and_more on the operation log. -/
def isSwapOp (op : RowEchelonOperation) : Bool :=
  match op with
  | .Swap _ _ => true
  | _ => false

/-- Matrix::determinant_for_dimension_4_and_more — forward elimination, then:
zero if the reduced matrix's last row is all zero (or no pivot was tracked),
otherwise the product of the tracked pivots, negated when the number of
recorded Swap operations is odd. -/
def determinant_for_dimension_4_and_more (m : Mx) : Option ℚ :=
  if ¬ is_square m then none
  else if ¬ 4 ≤ cols m then none
  else
    match reduced_row_echelon_form m with
    | none => none
    | some (ref_matrix, details) =>
      let ref_has_non_zero_row :=
        match (rowsOf ref_matrix).getLast? with
        | some r => r.all (fun k => decide (k = 0))
        | none => false
      if ref_has_non_zero_row then some 0
      else
        match details.tracked_pivots with
        | [] => some 0
        | p :: ps =>
          let result := ps.foldl (fun acc piv => acc * piv) p
          let swap_count := (details.operations.filter isSwapOp).length
          some (if swap_count % 2 ≠ 0 then -result else result)

/-- Matrix::determinant — asserts squareness and `cols <= 4` (either failing
assertion yields `none`), then dispatches on the dimension: 0 → additive
identity, 1 → sole entry, 2 → ad - bc, 3 → Sarrus, 4 → the row-reduction
path. -/
def determinant (m : Mx) : Option ℚ :=
  if ¬ is_square m then none
  else if ¬ cols m ≤ 4 then none
  else
    match cols m with
    | 0 => some 0
    | 1 => some (entry m 0 0)
    | 2 => some (entry m 0 0 * entry m 1 1 - entry m 1 0 * entry m 0 1)
    | 3 =>
      some ((entry m 0 0 * entry m 1 1 * entry m 2 2
             + entry m 1 0 * entry m 2 1 * entry m 0 2
             + entry m 2 0 * entry m 0 1 * entry m 1 2)
            - (entry m 0 2 * entry m 1 1 * entry m 2 0
               + entry m 1 2 * entry m 2 1 * entry m 0 0
               + entry m 2 2 * entry m 0 1 * entry m 1 0))
    | 4 => determinant_for_dimension_4_and_more m
    | _ => none

/-- Error enum of src/matrix/functions/inverse.rs. -/
inductive Error where
  | SingularMatrix
  deriving DecidableEq, Repr

/-- Loop body of Matrix::nullify_rows_above_pivot over the listed rows
(`0 .. pivot_row`). -/
def nullify_above_go (pc pr : Nat) (m : Mx) :
    List Nat → Mx × List RowEchelonOperation
  | [] => (m, [])
  | r :: rs =>
    let factor := entry m pc r
    if factor = 0 then nullify_above_go pc pr m rs
    else
      let s := row_add m r pr (-factor)
      let rest := nullify_above_go pc pr s.1 rs
      (rest.1, s.2 :: rest.2)

/-- Matrix::nullify_rows_above_pivot — zero the entries above the pivot. -/
def nullify_rows_above_pivot (m : Mx) (pc pr : Nat) :
    Mx × List RowEchelonOperation :=
  nullify_above_go pc pr m (List.range pr)

/-- Loop of Matrix::back_substitution over columns `1 .. cols`, threading the
local working copy and collecting the operations. -/
def back_sub_go (m : Mx) : List Nat → Mx × List RowEchelonOperation
  | [] => (m, [])
  | i :: is =>
    let s := nullify_rows_above_pivot m i i
    let rest := back_sub_go s.1 is
    (rest.1, s.2 ++ rest.2)

/-- Matrix::back_substitution — asserts the matrix is in row echelon form
(`none` if that assertion fires), then works on a clone of the receiver
(the receiver itself is never written) and returns the collected
operations. -/
def back_substitution (m : Mx) : Option (List RowEchelonOperation) :=
  if is_row_echelon_form m then
    some (back_sub_go m (List.range' 1 (cols m - 1))).2
  else none

/-- State-passing embedding of Matrix::inverse, which takes `&mut self`:
the result pairs the final state of `self` with the outcome.  The body only
ever reads `self` (row_echelon_with_details clones before mutating, and
back_substitution is invoked on the local reduced matrix, which it clones
internally), so every branch returns `self` unchanged.  `none` models a
fatal assertion (non-square input, or an engine/back-substitution assert). -/
def inverseS (self : Mx) : Mx × Option (Except Error Mx) :=
  if ¬ is_square self then (self, none)
  else
    match row_echelon_with_details self with
    | none => (self, none)
    | some (matrix, details) =>
      if details.tracked_pivots.length ≠ rows matrix then
        (self, some (.error .SingularMatrix))
      else
        match back_substitution matrix with
        | none => (self, none)
        | some bops =>
          let ops := details.operations ++ bops
          let identity_matrix := identity (cols self)
          (self, some (.ok (apply_multiple identity_matrix ops)))

/-- Result of Matrix::inverse (the second component of the state-passing
embedding). -/
def inverse (m : Mx) : Option (Except Error Mx) := (inverseS m).2

/-- linear_combination from src/vector/linear_combination.rs: running sum
`vector += vectors[i] * coefs[i]` (component-wise add of equal-length
vectors, scalar multiply on the right). -/
def lc_go (acc : List ℚ) : List (List ℚ × ℚ) → List ℚ
  | [] => acc
  | vc :: rest => lc_go (acc.zipWith (· + ·) (vc.1.map (· * vc.2))) rest

/-- linear_combination — `vectors[0] * coefs[0] + ... ` (the source asserts
the slice non-empty and the lengths equal; an empty slice yields `[]`
here, a case its callers never produce). -/
def linear_combination (vectors : List (List ℚ)) (coefs : List ℚ) : List ℚ :=
  match vectors, coefs with
  | v :: vs, c :: cs => lc_go (v.map (· * c)) (vs.zip cs)
  | _, _ => []

/-- Matrix::mul_mat via mul_matrix_matrix (src/matrix/arithmetics.rs):
column `i` of the result is `a[i] * b`, i.e. the linear combination of `b`'s
columns weighted by column `i` of `a`. -/
def mul_mat (a b : Mx) : Mx :=
  a.map (fun colA => linear_combination b colA)

-- ---------------------------------------------------------------------------
-- Proof-side definitions
-- ---------------------------------------------------------------------------

/-- Zero block: every entry in columns `0..pc`, rows `i..R`, is zero. -/
def ZB (m : Mx) (i pc R : Nat) : Prop :=
  ∀ c < pc, ∀ r, i ≤ r → r < R → entry m c r = 0

/-- Loop invariant of the forward-elimination pass after fixing `i` pivots,
whose columns are `cs` (in order): the matrix is well formed; pivot `j` sits
in row `j`, column `cs j`, normalized to 1, with zeros below it and to its
left; and every row from `i` down is zero on all columns up to the last pivot
column. -/
structure Inv (R C i : Nat) (m : Mx) (cs : List Nat) : Prop where
  wf : WF m R C
  len : cs.length = i
  mono : List.Pairwise (· < ·) cs
  bound : ∀ c ∈ cs, c < C
  pivot_one : ∀ (j : Nat) (hj : j < cs.length), entry m (cs.get ⟨j, hj⟩) j = 1
  left_zero : ∀ (j : Nat) (hj : j < cs.length), ∀ c < cs.get ⟨j, hj⟩, entry m c j = 0
  below_zero : ∀ (j : Nat) (hj : j < cs.length), ∀ r, j < r → r < R →
    entry m (cs.get ⟨j, hj⟩) r = 0
  front_zero : ∀ r, i ≤ r → r < R → ∀ c' c, c' ≤ c → c ∈ cs → entry m c' r = 0

/-- Safety data carried by every operation the engine records: swaps and row
additions act on two distinct in-range rows, divisions are by a non-zero
scalar on an in-range row, and the engine never records a Multipication. -/
def DetSafe (R : Nat) : RowEchelonOperation → Prop
  | .Swap a b => a ≠ b ∧ a < R ∧ b < R
  | .Multipication _ _ => False
  | .Division r k => k ≠ 0 ∧ r < R
  | .RowAddition a b _ => a ≠ b ∧ a < R ∧ b < R

/-- Scalars of the Division operations of a log, in order. -/
def divFactors (ops : List RowEchelonOperation) : List ℚ :=
  ops.filterMap (fun op =>
    match op with
    | .Division _ k => some k
    | _ => none)

/-- Mathlib-matrix view of the column-list representation: the (row, column)
entry of `toMat R C m` is `m[column][row]`. -/
def toMat (R C : Nat) (m : Mx) : Matrix (Fin R) (Fin C) ℚ :=
  fun r c => entry m c.val r.val

/-- Multiplicative effect of one elementary operation on the determinant of
the matrix it is applied to. -/
def detFactor : RowEchelonOperation → ℚ
  | .Swap _ _ => -1
  | .Multipication _ k => k
  | .Division _ k => k⁻¹
  | .RowAddition _ _ _ => 1

/-- Accumulated determinant factor of an operation log. -/
def detMul (ops : List RowEchelonOperation) : ℚ := (ops.map detFactor).prod

end Lin

namespace Lin

-- ---------------------------------------------------------------------------
-- List access lemmas
-- ---------------------------------------------------------------------------

theorem getD_set_self {α : Type} (l : List α) (i : Nat) (v d : α) (h : i < l.length) :
    (l.set i v).getD i d = v := by
  induction l generalizing i with
  | nil => simp at h
  | cons a as ih =>
    cases i with
    | zero => rfl
    | succ n => simpa using ih n (by simpa using h)

theorem getD_set_ne {α : Type} (l : List α) (i j : Nat) (v d : α) (h : i ≠ j) :
    (l.set i v).getD j d = l.getD j d := by
  induction l generalizing i j with
  | nil => rfl
  | cons a as ih =>
    cases i with
    | zero =>
      cases j with
      | zero => exact absurd rfl h
      | succ k => rfl
    | succ n =>
      cases j with
      | zero => rfl
      | succ k => simpa using ih n k (by omega)

theorem getD_map_col (g : List ℚ → List ℚ) (m : Mx) (c : Nat) (h : c < m.length) :
    (m.map g).getD c [] = g (m.getD c []) := by
  induction m generalizing c with
  | nil => simp at h
  | cons a as ih =>
    cases c with
    | zero => rfl
    | succ n => simpa using ih n (by simpa using h)

theorem getD_col_mem (m : Mx) (c : Nat) (h : c < m.length) : m.getD c [] ∈ m := by
  induction m generalizing c with
  | nil => simp at h
  | cons a as ih =>
    cases c with
    | zero => exact List.mem_cons_self _ _
    | succ n => exact List.mem_cons_of_mem _ (ih n (by simpa using h))

-- ---------------------------------------------------------------------------
-- Shape lemmas
-- ---------------------------------------------------------------------------

theorem cols_eq_of_WF {m : Mx} {R C : Nat} (hwf : WF m R C) : cols m = C := hwf.1

theorem col_length {m : Mx} {R C : Nat} (hwf : WF m R C) {c : Nat} (hc : c < C) :
    (m.getD c []).length = R :=
  hwf.2 _ (getD_col_mem m c (by rw [hwf.1]; exact hc))

theorem rows_eq_of_WF {m : Mx} {R C : Nat} (hwf : WF m R C) (hC : 0 < C) :
    rows m = R := by
  obtain ⟨hlen, hall⟩ := hwf
  cases m with
  | nil => simp at hlen; omega
  | cons a as => exact hall a (List.mem_cons_self _ _)

theorem WF_map {m : Mx} {R C : Nat} (hwf : WF m R C) (g : List ℚ → List ℚ)
    (hg : ∀ col, col.length = R → (g col).length = R) : WF (m.map g) R C := by
  refine ⟨by simpa using hwf.1, ?_⟩
  intro col hcol
  obtain ⟨c0, hc0, rfl⟩ := List.mem_map.1 hcol
  exact hg c0 (hwf.2 c0 hc0)

theorem WF_swap {m : Mx} {R C : Nat} (hwf : WF m R C) (a b : Nat) :
    WF (swap m a b).1 R C :=
  WF_map hwf _ (fun col h => by simp [List.length_set, h])

theorem WF_divide {m : Mx} {R C : Nat} (hwf : WF m R C) (row : Nat) (k : ℚ) :
    WF (divide m row k).1 R C :=
  WF_map hwf _ (fun col h => by simp [List.length_set, h])

theorem WF_row_add {m : Mx} {R C : Nat} (hwf : WF m R C) (t s : Nat) (k : ℚ) :
    WF (row_add m t s k).1 R C :=
  WF_map hwf _ (fun col h => by simp [List.length_set, h])

-- ---------------------------------------------------------------------------
-- Entry lemmas for the primitive row operations
-- ---------------------------------------------------------------------------

theorem entry_swap {m : Mx} {R C : Nat} (hwf : WF m R C) {a b c : Nat} (r : Nat)
    (hc : c < C) (ha : a < R) (hb : b < R) :
    entry (swap m a b).1 c r =
      if r = b then entry m c a else if r = a then entry m c b else entry m c r := by
  have hcm : c < m.length := by rw [hwf.1]; exact hc
  have hlen := col_length hwf hc
  unfold entry swap
  rw [getD_map_col _ _ _ hcm]
  by_cases hrb : r = b
  · subst hrb
    rw [if_pos rfl, getD_set_self _ _ _ _ (by rw [List.length_set, hlen]; exact hb)]
  · rw [if_neg hrb, getD_set_ne _ _ _ _ _ (fun h => hrb h.symm)]
    by_cases hra : r = a
    · subst hra
      rw [if_pos rfl, getD_set_self _ _ _ _ (by rw [hlen]; exact ha)]
    · rw [if_neg hra, getD_set_ne _ _ _ _ _ (fun h => hra h.symm)]

theorem entry_divide {m : Mx} {R C : Nat} (hwf : WF m R C) {row c : Nat} (r : Nat)
    (k : ℚ) (hc : c < C) (hrow : row < R) :
    entry (divide m row k).1 c r =
      if r = row then entry m c r / k else entry m c r := by
  have hcm : c < m.length := by rw [hwf.1]; exact hc
  have hlen := col_length hwf hc
  unfold entry divide
  rw [getD_map_col _ _ _ hcm]
  by_cases hr : r = row
  · subst hr
    rw [if_pos rfl, getD_set_self _ _ _ _ (by rw [hlen]; exact hrow)]
  · rw [if_neg hr, getD_set_ne _ _ _ _ _ (fun h => hr h.symm)]

theorem entry_row_add {m : Mx} {R C : Nat} (hwf : WF m R C) {t c : Nat} (s r : Nat)
    (k : ℚ) (hc : c < C) (ht : t < R) :
    entry (row_add m t s k).1 c r =
      if r = t then entry m c t + entry m c s * k else entry m c r := by
  have hcm : c < m.length := by rw [hwf.1]; exact hc
  have hlen := col_length hwf hc
  unfold entry row_add
  rw [getD_map_col _ _ _ hcm]
  by_cases hr : r = t
  · subst hr
    rw [if_pos rfl, getD_set_self _ _ _ _ (by rw [hlen]; exact ht)]
  · rw [if_neg hr, getD_set_ne _ _ _ _ _ (fun h => hr h.symm)]

theorem apply_multiple_append (m : Mx) (a b : List RowEchelonOperation) :
    apply_multiple m (a ++ b) = apply_multiple (apply_multiple m a) b :=
  List.foldl_append ..

theorem apply_multiple_cons (m : Mx) (op : RowEchelonOperation)
    (ops : List RowEchelonOperation) :
    apply_multiple m (op :: ops) = apply_multiple (apply m op) ops := rfl

-- ---------------------------------------------------------------------------
-- next_pivot lemmas
-- ---------------------------------------------------------------------------

theorem next_pivot_in_col_cons (m : Mx) (c : Nat) (saved : Option (Nat × Nat))
    (r : Nat) (rs : List Nat) :
    next_pivot_in_col m c saved (r :: rs) =
      if entry m c r = 0 then next_pivot_in_col m c saved rs
      else
        match saved with
        | some (pc, pr) =>
          if entry m pc pr < entry m c r then next_pivot_in_col m c (some (c, r)) rs
          else next_pivot_in_col m c saved rs
        | none => next_pivot_in_col m c (some (c, r)) rs := rfl

theorem next_pivot_in_col_sound (m : Mx) (c : Nat) (Q : Nat → Nat → Prop) :
    ∀ (L : List Nat) (saved : Option (Nat × Nat)),
      (∀ pc pr, saved = some (pc, pr) → Q pc pr) →
      (∀ r ∈ L, entry m c r ≠ 0 → Q c r) →
      ∀ pc pr, next_pivot_in_col m c saved L = some (pc, pr) → Q pc pr := by
  intro L
  induction L with
  | nil =>
    intro saved hs _ pc pr h
    exact hs pc pr h
  | cons r rs ih =>
    intro saved hs hL pc pr h
    rw [next_pivot_in_col_cons] at h
    by_cases hz : entry m c r = 0
    · simp only [hz, reduceIte] at h
      exact ih saved hs (fun r' hr' => hL r' (List.mem_cons_of_mem _ hr')) pc pr h
    · simp only [hz, reduceIte] at h
      have hQcr : Q c r := hL r (List.mem_cons_self _ _) hz
      cases saved with
      | none =>
        exact ih _ (fun pc' pr' he => by cases he; exact hQcr)
          (fun r' hr' => hL r' (List.mem_cons_of_mem _ hr')) pc pr h
      | some p =>
        obtain ⟨pc0, pr0⟩ := p
        simp only at h
        by_cases hlt : entry m pc0 pr0 < entry m c r
        · rw [if_pos hlt] at h
          exact ih _ (fun pc' pr' he => by cases he; exact hQcr)
            (fun r' hr' => hL r' (List.mem_cons_of_mem _ hr')) pc pr h
        · rw [if_neg hlt] at h
          exact ih _ hs (fun r' hr' => hL r' (List.mem_cons_of_mem _ hr')) pc pr h

theorem next_pivot_in_col_none (m : Mx) (c : Nat) :
    ∀ (L : List Nat) (saved : Option (Nat × Nat)),
      next_pivot_in_col m c saved L = none →
      saved = none ∧ ∀ r ∈ L, entry m c r = 0 := by
  intro L
  induction L with
  | nil =>
    intro saved h
    exact ⟨h, by simp⟩
  | cons r rs ih =>
    intro saved h
    rw [next_pivot_in_col_cons] at h
    by_cases hz : entry m c r = 0
    · simp only [hz, reduceIte] at h
      obtain ⟨hs, hrest⟩ := ih saved h
      refine ⟨hs, ?_⟩
      intro r' hr'
      rcases List.mem_cons.1 hr' with h1 | h2
      · subst h1; exact hz
      · exact hrest r' h2
    · simp only [hz, reduceIte] at h
      exfalso
      cases saved with
      | none => exact Option.noConfusion (ih _ h).1
      | some p =>
        obtain ⟨pc0, pr0⟩ := p
        simp only at h
        by_cases hlt : entry m pc0 pr0 < entry m c r
        · rw [if_pos hlt] at h
          exact Option.noConfusion (ih _ h).1
        · rw [if_neg hlt] at h
          exact Option.noConfusion (ih _ h).1

theorem next_pivot_cols_range_spec (m : Mx) (i : Nat) :
    ∀ (len a pc pr : Nat),
      next_pivot_cols m i (List.range' a len) = some (pc, pr) →
      (a ≤ pc ∧ pc < a + len) ∧ pr ∈ List.range' i (rows m - i) ∧
        entry m pc pr ≠ 0 ∧
        ∀ c, a ≤ c → c < pc → ∀ r ∈ List.range' i (rows m - i), entry m c r = 0 := by
  intro len
  induction len with
  | zero => intro a pc pr h; exact absurd h (by simp [next_pivot_cols])
  | succ n ih =>
    intro a pc pr h
    rw [List.range'_succ, next_pivot_cols] at h
    cases hin : next_pivot_in_col m a none (List.range' i (rows m - i)) with
    | some p =>
      rw [hin] at h
      have hp : p = (pc, pr) := Option.some.inj h
      subst hp
      obtain ⟨hpc, hmem, hnz⟩ := next_pivot_in_col_sound m a
          (fun x y => x = a ∧ y ∈ List.range' i (rows m - i) ∧ entry m a y ≠ 0)
          (List.range' i (rows m - i)) none (by simp)
          (fun r hr hnz => ⟨rfl, hr, hnz⟩) pc pr hin
      subst hpc
      exact ⟨⟨le_refl _, by omega⟩, hmem, hnz,
             fun c hac hca => absurd (lt_of_le_of_lt hac hca) (lt_irrefl _)⟩
    | none =>
      rw [hin] at h
      obtain ⟨⟨h1, h2⟩, h3, h4, h5⟩ := ih (a + 1) pc pr h
      obtain ⟨_, hzero⟩ := next_pivot_in_col_none m a _ _ hin
      refine ⟨⟨by omega, by omega⟩, h3, h4, ?_⟩
      intro c hac hcp r hr
      rcases Nat.eq_or_lt_of_le hac with h6 | h6
      · subst h6; exact hzero r hr
      · exact h5 c h6 hcp r hr

theorem next_pivot_cols_none_spec (m : Mx) (i : Nat) :
    ∀ (L : List Nat), next_pivot_cols m i L = none →
      ∀ c ∈ L, ∀ r ∈ List.range' i (rows m - i), entry m c r = 0 := by
  intro L
  induction L with
  | nil => intro _ c hc; simp at hc
  | cons c0 cs ih =>
    intro h c hc r hr
    rw [next_pivot_cols] at h
    cases hin : next_pivot_in_col m c0 none (List.range' i (rows m - i)) with
    | some p => rw [hin] at h; exact Option.noConfusion h
    | none =>
      rw [hin] at h
      rcases List.mem_cons.1 hc with h1 | h2
      · subst h1; exact (next_pivot_in_col_none m c _ _ hin).2 r hr
      · exact ih h c h2 r hr

/-- Soundness of `next_pivot`: the returned position is in range, holds a
non-zero entry, and every column strictly to its left is entirely zero on the
scanned rows. -/
theorem next_pivot_spec {m : Mx} {i pc pr : Nat}
    (h : next_pivot m i = some (pc, pr)) :
    pc < cols m ∧ (i ≤ pr ∧ pr < rows m) ∧ entry m pc pr ≠ 0 ∧
      ∀ c < pc, ∀ r, i ≤ r → r < rows m → entry m c r = 0 := by
  rw [next_pivot, List.range_eq_range'] at h
  obtain ⟨⟨_, h2⟩, h3, h4, h5⟩ := next_pivot_cols_range_spec m i _ 0 pc pr h
  have hpr : i ≤ pr ∧ pr < rows m := by
    have := List.mem_range'_1.1 h3
    omega
  refine ⟨by omega, hpr, h4, ?_⟩
  intro c hc r hri hrR
  exact h5 c (Nat.zero_le _) hc r (List.mem_range'_1.2 (by omega))

/-- When `next_pivot` finds nothing, every remaining entry (all columns, rows
at or below the scan start) is zero. -/
theorem next_pivot_none_spec {m : Mx} {i : Nat} (h : next_pivot m i = none) :
    ∀ c < cols m, ∀ r, i ≤ r → r < rows m → entry m c r = 0 := by
  rw [next_pivot, List.range_eq_range'] at h
  intro c hc r hri hrR
  exact next_pivot_cols_none_spec m i _ h c (List.mem_range'_1.2 (by omega)) r
    (List.mem_range'_1.2 (by omega))

-- ---------------------------------------------------------------------------
-- nullify_rows_below_pivot characterization
-- ---------------------------------------------------------------------------

theorem nullify_below_go_spec (pc i R C : Nat) (hpc : pc < C) :
    ∀ (L : List Nat) (m : Mx), WF m R C → (∀ r ∈ L, i < r ∧ r < R) → L.Nodup →
      WF (nullify_below_go pc i m L).1 R C ∧
      (∀ c, c < C → ∀ r,
        entry (nullify_below_go pc i m L).1 c r =
          if r ∈ L then entry m c r + entry m c i * (-(entry m pc r))
          else entry m c r) := by
  intro L
  induction L with
  | nil =>
    intro m hwf _ _
    exact ⟨hwf, fun c _ r => by simp [nullify_below_go]⟩
  | cons r0 rs ih =>
    intro m hwf hL hnd
    have hr0 : i < r0 ∧ r0 < R := hL r0 (List.mem_cons_self _ _)
    have hr0rs : r0 ∉ rs := (List.nodup_cons.1 hnd).1
    have hndrs : rs.Nodup := (List.nodup_cons.1 hnd).2
    have hLrs : ∀ r ∈ rs, i < r ∧ r < R := fun r hr => hL r (List.mem_cons_of_mem _ hr)
    rw [nullify_below_go]
    by_cases hz : entry m pc r0 = 0
    · simp only [hz, reduceIte]
      obtain ⟨hwf', hent⟩ := ih m hwf hLrs hndrs
      refine ⟨hwf', ?_⟩
      intro c hc r
      rw [hent c hc r]
      by_cases hmem : r ∈ r0 :: rs
      · rcases List.mem_cons.1 hmem with h1 | h2
        · subst h1
          rw [if_pos hmem, if_neg (fun hh => hr0rs hh), hz]
          ring
        · rw [if_pos hmem, if_pos h2]
      · rw [if_neg hmem, if_neg (fun hh => hmem (List.mem_cons_of_mem _ hh))]
    · simp only [hz, reduceIte]
      have hwf1 : WF (row_add m r0 i (-(entry m pc r0))).1 R C :=
        WF_row_add hwf _ _ _
      obtain ⟨hwf', hent⟩ := ih _ hwf1 hLrs hndrs
      refine ⟨hwf', ?_⟩
      intro c hc r
      rw [hent c hc r]
      have herow : ∀ c' r', c' < C →
          entry (row_add m r0 i (-(entry m pc r0))).1 c' r' =
            if r' = r0 then entry m c' r0 + entry m c' i * (-(entry m pc r0))
            else entry m c' r' :=
        fun c' r' hc' => entry_row_add hwf i r' (-(entry m pc r0)) hc' hr0.2
      by_cases hmem : r ∈ r0 :: rs
      · rcases List.mem_cons.1 hmem with h1 | h2
        · subst h1
          rw [if_neg (fun hh => hr0rs hh), if_pos hmem]
          rw [herow c r hc, if_pos rfl]
        · have hrne : r ≠ r0 := fun hh => hr0rs (hh ▸ h2)
          rw [if_pos h2, if_pos hmem]
          rw [herow c r hc, if_neg hrne,
              herow c i hc, if_neg (fun hh => by omega),
              herow pc r hpc, if_neg hrne]
      · have hrne : r ≠ r0 := fun hh => hmem (hh ▸ List.mem_cons_self _ _)
        rw [if_neg (fun hh => hmem (List.mem_cons_of_mem _ hh)), if_neg hmem]
        rw [herow c r hc, if_neg hrne]

theorem nullify_below_go_ops (pc i R : Nat) :
    ∀ (L : List Nat) (m : Mx), (∀ r ∈ L, i < r ∧ r < R) →
      ∀ op ∈ (nullify_below_go pc i m L).2,
        ∃ r k, op = .RowAddition r i k ∧ i < r ∧ r < R := by
  intro L
  induction L with
  | nil => intro m _ op hop; simp [nullify_below_go] at hop
  | cons r0 rs ih =>
    intro m hL op hop
    have hr0 : i < r0 ∧ r0 < R := hL r0 (List.mem_cons_self _ _)
    have hLrs : ∀ r ∈ rs, i < r ∧ r < R := fun r hr => hL r (List.mem_cons_of_mem _ hr)
    rw [nullify_below_go] at hop
    by_cases hz : entry m pc r0 = 0
    · simp only [hz, reduceIte] at hop
      exact ih m hLrs op hop
    · simp only [hz, reduceIte] at hop
      rcases List.mem_cons.1 hop with h1 | h2
      · exact ⟨r0, -(entry m pc r0), h1, hr0.1, hr0.2⟩
      · exact ih _ hLrs op h2

-- ---------------------------------------------------------------------------
-- Invariant preservation through one pivot step
-- ---------------------------------------------------------------------------

theorem Inv_swap {R C i : Nat} {m : Mx} {cs : List Nat} {a b : Nat}
    (h : Inv R C i m cs) (ha : i ≤ a) (ha2 : a < R) (hb : i ≤ b) (hb2 : b < R) :
    Inv R C i (swap m a b).1 cs := by
  have hw := h.wf
  have e : ∀ c r, c < C → entry (swap m a b).1 c r =
      if r = b then entry m c a else if r = a then entry m c b else entry m c r :=
    fun c r hc => entry_swap hw r hc ha2 hb2
  refine ⟨WF_swap hw a b, h.len, h.mono, h.bound, ?_, ?_, ?_, ?_⟩
  · intro j hj
    have hjc := h.bound _ (List.get_mem cs j hj)
    rw [e _ _ hjc]
    have hji : j < i := h.len ▸ hj
    rw [if_neg (by omega), if_neg (by omega)]
    exact h.pivot_one j hj
  · intro j hj c hc
    have hjc : c < C := lt_trans hc (h.bound _ (List.get_mem cs j hj))
    rw [e _ _ hjc]
    have hji : j < i := h.len ▸ hj
    rw [if_neg (by omega), if_neg (by omega)]
    exact h.left_zero j hj c hc
  · intro j hj r hjr hrR
    have hjc := h.bound _ (List.get_mem cs j hj)
    have hji : j < i := h.len ▸ hj
    rw [e _ _ hjc]
    by_cases h1 : r = b
    · rw [if_pos h1]; exact h.below_zero j hj a (by omega) ha2
    · rw [if_neg h1]
      by_cases h2 : r = a
      · rw [if_pos h2]; exact h.below_zero j hj b (by omega) hb2
      · rw [if_neg h2]; exact h.below_zero j hj r hjr hrR
  · intro r hir hrR c' c hcc hc
    have hcC : c' < C := lt_of_le_of_lt hcc (h.bound _ hc)
    rw [e _ _ hcC]
    by_cases h1 : r = b
    · rw [if_pos h1]; exact h.front_zero a ha ha2 c' c hcc hc
    · rw [if_neg h1]
      by_cases h2 : r = a
      · rw [if_pos h2]; exact h.front_zero b hb hb2 c' c hcc hc
      · rw [if_neg h2]; exact h.front_zero r hir hrR c' c hcc hc

theorem ZB_swap {m : Mx} {R C i pc : Nat} {a b : Nat} (hwf : WF m R C)
    (hz : ZB m i pc R) (hpc : pc ≤ C) (ha : i ≤ a) (ha2 : a < R) (hb : i ≤ b)
    (hb2 : b < R) : ZB (swap m a b).1 i pc R := by
  intro c hc r hir hrR
  rw [entry_swap hwf r (by omega) ha2 hb2]
  by_cases h1 : r = b
  · rw [if_pos h1]; exact hz c hc a ha ha2
  · rw [if_neg h1]
    by_cases h2 : r = a
    · rw [if_pos h2]; exact hz c hc b hb hb2
    · rw [if_neg h2]; exact hz c hc r hir hrR

theorem Inv_divide {R C i : Nat} {m : Mx} {cs : List Nat} (k : ℚ)
    (h : Inv R C i m cs) (hi : i < R) : Inv R C i (divide m i k).1 cs := by
  have hw := h.wf
  have e : ∀ c r, c < C → entry (divide m i k).1 c r =
      if r = i then entry m c r / k else entry m c r :=
    fun c r hc => entry_divide hw r k hc hi
  refine ⟨WF_divide hw i k, h.len, h.mono, h.bound, ?_, ?_, ?_, ?_⟩
  · intro j hj
    have hji : j < i := h.len ▸ hj
    rw [e _ _ (h.bound _ (List.get_mem cs j hj)), if_neg (by omega)]
    exact h.pivot_one j hj
  · intro j hj c hc
    have hji : j < i := h.len ▸ hj
    rw [e _ _ (lt_trans hc (h.bound _ (List.get_mem cs j hj))), if_neg (by omega)]
    exact h.left_zero j hj c hc
  · intro j hj r hjr hrR
    rw [e _ _ (h.bound _ (List.get_mem cs j hj))]
    by_cases h1 : r = i
    · rw [if_pos h1, h1, h.below_zero j hj i (by omega) hi, zero_div]
    · rw [if_neg h1]; exact h.below_zero j hj r hjr hrR
  · intro r hir hrR c' c hcc hc
    rw [e _ _ (lt_of_le_of_lt hcc (h.bound _ hc))]
    by_cases h1 : r = i
    · rw [if_pos h1, h.front_zero r hir hrR c' c hcc hc, zero_div]
    · rw [if_neg h1]; exact h.front_zero r hir hrR c' c hcc hc

theorem ZB_divide {m : Mx} {R C i pc : Nat} (k : ℚ) (hwf : WF m R C)
    (hz : ZB m i pc R) (hpc : pc ≤ C) (hi : i < R) :
    ZB (divide m i k).1 i pc R := by
  intro c hc r hir hrR
  rw [entry_divide hwf r k (by omega) hi]
  by_cases h1 : r = i
  · rw [if_pos h1, hz c hc r hir hrR, zero_div]
  · rw [if_neg h1]; exact hz c hc r hir hrR

theorem get_append_last {α : Type} (xs : List α) (x : α) (h : xs.length < (xs ++ [x]).length) :
    (xs ++ [x]).get ⟨xs.length, h⟩ = x := by
  induction xs with
  | nil => rfl
  | cons a as ih => simpa using ih (by simpa using h)

theorem get_append_lt {α : Type} (xs ys : List α) (j : Nat) (h : j < xs.length)
    (h2 : j < (xs ++ ys).length) : (xs ++ ys).get ⟨j, h2⟩ = xs.get ⟨j, h⟩ := by
  induction xs generalizing j with
  | nil => simp at h
  | cons a as ih =>
    cases j with
    | zero => rfl
    | succ n => simpa using ih n (by simpa using h) (by simpa using h2)

/-- One completed pivot step extends the invariant: matrix `m2` satisfies the
invariant with `i` pivots, has a normalized pivot at `(pc, i)`, zeros on all
columns left of `pc` from row `i` down, and `m3` results from eliminating
below row `i` in column `pc` (possibly vacuously). -/
theorem Inv_extend {R C i pc : Nat} {m2 m3 : Mx} {cs : List Nat}
    (inv2 : Inv R C i m2 cs) (hpcC : pc < C) (hgt : ∀ c ∈ cs, c < pc)
    (hone : entry m2 pc i = 1) (hzb : ZB m2 i pc R) (hiR : i < R)
    (hwf3 : WF m3 R C)
    (hstep : ∀ c, c < C → ∀ r, entry m3 c r =
      if i + 1 ≤ r ∧ r < R then entry m2 c r + entry m2 c i * (-(entry m2 pc r))
      else entry m2 c r) :
    Inv R C (i + 1) m3 (cs ++ [pc]) := by
  have hlen : (cs ++ [pc]).length = i + 1 := by simp [inv2.len]
  have hget : ∀ (j : Nat) (hj : j < (cs ++ [pc]).length),
      (cs ++ [pc]).get ⟨j, hj⟩ = if hj2 : j < cs.length then cs.get ⟨j, hj2⟩ else pc := by
    intro j hj
    by_cases hj2 : j < cs.length
    · rw [dif_pos hj2]; exact get_append_lt cs [pc] j hj2 hj
    · rw [dif_neg hj2]
      have : j = cs.length := by simp at hj; omega
      subst this
      exact get_append_last cs pc hj
  refine ⟨hwf3, hlen, ?_, ?_, ?_, ?_, ?_, ?_⟩
  · rw [List.pairwise_append]
    exact ⟨inv2.mono, List.pairwise_singleton _ _, fun c hc x hx => by
      rcases List.mem_singleton.1 hx with rfl; exact hgt c hc⟩
  · intro c hc
    rcases List.mem_append.1 hc with h1 | h2
    · exact inv2.bound c h1
    · rcases List.mem_singleton.1 h2 with rfl; exact hpcC
  · -- pivot_one
    intro j hj
    rw [hget j hj]
    by_cases hj2 : j < cs.length
    · rw [dif_pos hj2]
      have hji : j < i := inv2.len ▸ hj2
      rw [hstep _ (inv2.bound _ (List.get_mem cs j hj2)) j, if_neg (by omega)]
      exact inv2.pivot_one j hj2
    · rw [dif_neg hj2]
      have hji : j = i := by rw [hlen] at hj; rw [inv2.len] at hj2; omega
      subst hji
      rw [hstep _ hpcC j, if_neg (by omega)]
      exact hone
  · -- left_zero
    intro j hj c hc
    rw [hget j hj] at hc
    by_cases hj2 : j < cs.length
    · rw [dif_pos hj2] at hc
      have hji : j < i := inv2.len ▸ hj2
      have hcC : c < C := lt_trans hc (inv2.bound _ (List.get_mem cs j hj2))
      rw [hstep _ hcC j, if_neg (by omega)]
      exact inv2.left_zero j hj2 c hc
    · rw [dif_neg hj2] at hc
      have hji : j = i := by rw [hlen] at hj; rw [inv2.len] at hj2; omega
      subst hji
      rw [hstep _ (by omega) j, if_neg (by omega)]
      exact hzb c hc j (le_refl _) hiR
  · -- below_zero
    intro j hj r hjr hrR
    rw [hget j hj]
    by_cases hj2 : j < cs.length
    · rw [dif_pos hj2]
      have hji : j < i := inv2.len ▸ hj2
      have hcC : (cs.get ⟨j, hj2⟩) < C := inv2.bound _ (List.get_mem cs j hj2)
      rw [hstep _ hcC r]
      by_cases hr1 : i + 1 ≤ r ∧ r < R
      · rw [if_pos hr1]
        rw [inv2.below_zero j hj2 r hjr hrR, inv2.below_zero j hj2 i (by omega) (by omega)]
        ring
      · rw [if_neg hr1]
        exact inv2.below_zero j hj2 r hjr hrR
    · rw [dif_neg hj2]
      have hji : j = i := by rw [hlen] at hj; rw [inv2.len] at hj2; omega
      subst hji
      rw [hstep _ hpcC r, if_pos ⟨by omega, hrR⟩, hone]
      ring
  · -- front_zero
    intro r hir hrR c' c hcc hc
    have hcpc : c ≤ pc := by
      rcases List.mem_append.1 hc with h1 | h2
      · exact le_of_lt (hgt c h1)
      · rcases List.mem_singleton.1 h2 with rfl; exact le_refl _
    have hc'C : c' < C := by omega
    rw [hstep _ hc'C r, if_pos ⟨hir, hrR⟩]
    by_cases hc'pc : c' < pc
    · rw [hzb c' hc'pc r (by omega) hrR, hzb c' hc'pc i (le_refl _) hiR]
      ring
    · have hc'eq : c' = pc := by omega
      subst hc'eq
      rw [hone]
      ring

-- ---------------------------------------------------------------------------
-- The master loop lemma
-- ---------------------------------------------------------------------------

theorem rref_go_cons (m : Mx) (d : RowEchelonDetails) (i : Nat) (rest : List Nat) :
    rref_go m d (i :: rest) =
      match next_pivot m i with
      | none => some (m, d)
      | some (pc, pr) =>
        let step :=
          if pr ≠ i then
            let s := swap m pr i
            (s.1, { d with operations := d.operations ++ [s.2] })
          else (m, d)
        let m1 := step.1
        let piv := entry m1 pc i
        let d2 := { step.2 with tracked_pivots := step.2.tracked_pivots ++ [piv] }
        if piv = 0 then none
        else
          let s2 := divide m1 i piv
          let d3 := { d2 with operations := d2.operations ++ [s2.2] }
          if i < rows s2.1 - 1 then
            let s3 := nullify_rows_below_pivot s2.1 pc i
            rref_go s3.1 { d3 with operations := d3.operations ++ s3.2 } rest
          else rref_go s2.1 d3 rest := rfl

theorem divFactors_append (a b : List RowEchelonOperation) :
    divFactors (a ++ b) = divFactors a ++ divFactors b :=
  List.filterMap_append a b _

theorem rref_go_master (R C : Nat) :
    ∀ (k i : Nat) (m : Mx) (d : RowEchelonDetails) (cs : List Nat),
      Inv R C i m cs → i + k ≤ min R C →
      (∀ p ∈ d.tracked_pivots, p ≠ 0) →
      (∀ op ∈ d.operations, DetSafe R op) →
      divFactors d.operations = d.tracked_pivots →
      ∃ (m' : Mx) (d' : RowEchelonDetails) (cs' : List Nat) (i' : Nat),
        rref_go m d (List.range' i k) = some (m', d') ∧
        Inv R C i' m' cs' ∧ i ≤ i' ∧ i' ≤ i + k ∧
        d'.tracked_pivots.length = d.tracked_pivots.length + (i' - i) ∧
        (∀ p ∈ d'.tracked_pivots, p ≠ 0) ∧
        (∀ op ∈ d'.operations, DetSafe R op) ∧
        divFactors d'.operations = d'.tracked_pivots ∧
        (i' < i + k → ∀ c, c < C → ∀ r, i' ≤ r → r < R → entry m' c r = 0) := by
  intro k
  induction k with
  | zero =>
    intro i m d cs hinv _ hdp hds hdf
    exact ⟨m, d, cs, i, rfl, hinv, le_refl _, by omega, by omega, hdp, hds, hdf,
           fun h => absurd h (by omega)⟩
  | succ k ih =>
    intro i m d cs hinv hk hdp hds hdf
    have hC : 0 < C := by omega
    have hR : 0 < R := by omega
    have hiR : i < R := by omega
    have hiC : i < C := by omega
    have hrows : rows m = R := rows_eq_of_WF hinv.wf hC
    have hcols : cols m = C := hinv.wf.1
    rw [List.range'_succ, rref_go_cons]
    cases hnp : next_pivot m i with
    | none =>
      have hzero := next_pivot_none_spec hnp
      rw [hrows, hcols] at hzero
      refine ⟨m, d, cs, i, rfl, hinv, le_refl _, by omega, by omega, hdp, hds, hdf, ?_⟩
      intro _ c hc r hir hrR
      exact hzero c hc r hir hrR
    | some p =>
      obtain ⟨pc, pr⟩ := p
      obtain ⟨hpcC, hpr, hnz, hprior⟩ := next_pivot_spec hnp
      rw [hcols] at hpcC
      rw [hrows] at hpr
      rw [hrows] at hprior
      have hgt : ∀ c ∈ cs, c < pc := by
        intro c hc
        by_contra hle
        push_neg at hle
        exact hnz (hinv.front_zero pr hpr.1 hpr.2 pc c hle hc)
      have hzbm : ZB m i pc R := fun c hc r hir hrR => hprior c hc r hir hrR
      by_cases hsw : pr ≠ i
      all_goals simp only [ne_eq, hsw, not_false_eq_true, if_true, reduceIte]
      -- swap branch
      · have inv1 : Inv R C i (swap m pr i).1 cs :=
          Inv_swap hinv hpr.1 hpr.2 (le_refl i) hiR
        have zb1 : ZB (swap m pr i).1 i pc R :=
          ZB_swap hinv.wf hzbm (le_of_lt hpcC) hpr.1 hpr.2 (le_refl i) hiR
        have hpiv : entry (swap m pr i).1 pc i ≠ 0 := by
          rw [entry_swap hinv.wf i hpcC hpr.2 hiR, if_pos rfl]
          exact hnz
        rw [if_neg hpiv]
        set piv := entry (swap m pr i).1 pc i with hpivdef
        have inv2 : Inv R C i (divide (swap m pr i).1 i piv).1 cs :=
          Inv_divide piv inv1 hiR
        have zb2 : ZB (divide (swap m pr i).1 i piv).1 i pc R :=
          ZB_divide piv inv1.wf zb1 (le_of_lt hpcC) hiR
        have hone : entry (divide (swap m pr i).1 i piv).1 pc i = 1 := by
          rw [entry_divide inv1.wf i piv hpcC hiR, if_pos rfl, div_self hpiv]
        have hrows2 : rows (divide (swap m pr i).1 i piv).1 = R :=
          rows_eq_of_WF inv2.wf hC
        by_cases hlt : i < rows (divide (swap m pr i).1 i piv).1 - 1
        · rw [if_pos hlt]
          have hLb : ∀ r ∈ List.range' (i + 1)
              (rows (divide (swap m pr i).1 i piv).1 - (i + 1)), i < r ∧ r < R := by
            intro r hr
            have := List.mem_range'_1.1 hr
            rw [hrows2] at this
            omega
          obtain ⟨hwf3, hent3⟩ := nullify_below_go_spec pc i R C hpcC _ _ inv2.wf hLb
            (List.nodup_range' _ _)
          have hstep : ∀ c, c < C → ∀ r,
              entry (nullify_rows_below_pivot (divide (swap m pr i).1 i piv).1 pc i).1 c r =
                if i + 1 ≤ r ∧ r < R then
                  entry (divide (swap m pr i).1 i piv).1 c r +
                    entry (divide (swap m pr i).1 i piv).1 c i *
                      (-(entry (divide (swap m pr i).1 i piv).1 pc r))
                else entry (divide (swap m pr i).1 i piv).1 c r := by
            intro c hc r
            rw [nullify_rows_below_pivot]
            rw [hent3 c hc r]
            by_cases hmem : r ∈ List.range' (i + 1)
                (rows (divide (swap m pr i).1 i piv).1 - (i + 1))
            · have := List.mem_range'_1.1 hmem
              rw [hrows2] at this
              rw [if_pos hmem, if_pos (by omega)]
            · rw [if_neg hmem, if_neg (fun hcon => hmem (List.mem_range'_1.2 (by
                rw [hrows2]; omega)))]
          have inv3 := Inv_extend inv2 hpcC hgt hone zb2 hiR hwf3 hstep
          have hops3 := nullify_below_go_ops pc i R _ (divide (swap m pr i).1 i piv).1 hLb
          obtain ⟨m', d', cs', i', heq, hinv', hle1, hle2, hcount, hdp', hds', hdf', hbrk⟩ :=
            ih (i + 1)
              (nullify_rows_below_pivot (divide (swap m pr i).1 i piv).1 pc i).1
              ⟨d.tracked_pivots ++ [piv],
               d.operations ++ [(swap m pr i).2] ++ [(divide (swap m pr i).1 i piv).2] ++
                 (nullify_rows_below_pivot (divide (swap m pr i).1 i piv).1 pc i).2⟩
              (cs ++ [pc]) inv3 (by omega)
              (by
                intro p hp
                rcases List.mem_append.1 hp with h1 | h2
                · exact hdp p h1
                · rcases List.mem_singleton.1 h2 with rfl; exact hpiv)
              (by
                intro op hop
                rcases List.mem_append.1 hop with hop1 | hop2
                · rcases List.mem_append.1 hop1 with hop3 | hop4
                  · rcases List.mem_append.1 hop3 with hop5 | hop6
                    · exact hds op hop5
                    · rcases List.mem_singleton.1 hop6 with rfl
                      exact ⟨hsw, hpr.2, hiR⟩
                  · rcases List.mem_singleton.1 hop4 with rfl
                    exact ⟨hpiv, hiR⟩
                · obtain ⟨r, kk, rfl, hlo, hhi⟩ := hops3 op hop2
                  exact ⟨by omega, hhi, hiR⟩)
              (by
                rw [divFactors_append, divFactors_append, divFactors_append, hdf]
                have h1 : divFactors [(swap m pr i).2] = [] := rfl
                have h2 : divFactors [(divide (swap m pr i).1 i piv).2] = [piv] := rfl
                have h3 : divFactors
                    (nullify_rows_below_pivot (divide (swap m pr i).1 i piv).1 pc i).2 = [] := by
                  rw [divFactors, List.filterMap_eq_nil]
                  intro op hop
                  obtain ⟨r, kk, rfl, _, _⟩ := hops3 op hop
                  rfl
                rw [h1, h2, h3]
                simp)
          refine ⟨m', d', cs', i', heq, hinv', by omega, by omega, ?_, hdp', hds', hdf', ?_⟩
          · rw [hcount]; simp; omega
          · intro hlt'
            exact hbrk (by omega)
        · rw [if_neg hlt]
          have hieq : i = R - 1 := by rw [hrows2] at hlt; omega
          have hstep : ∀ c, c < C → ∀ r,
              entry (divide (swap m pr i).1 i piv).1 c r =
                if i + 1 ≤ r ∧ r < R then
                  entry (divide (swap m pr i).1 i piv).1 c r +
                    entry (divide (swap m pr i).1 i piv).1 c i *
                      (-(entry (divide (swap m pr i).1 i piv).1 pc r))
                else entry (divide (swap m pr i).1 i piv).1 c r := by
            intro c hc r
            rw [if_neg (by omega)]
          have inv3 := Inv_extend inv2 hpcC hgt hone zb2 hiR inv2.wf hstep
          obtain ⟨m', d', cs', i', heq, hinv', hle1, hle2, hcount, hdp', hds', hdf', hbrk⟩ :=
            ih (i + 1)
              (divide (swap m pr i).1 i piv).1
              ⟨d.tracked_pivots ++ [piv],
               d.operations ++ [(swap m pr i).2] ++ [(divide (swap m pr i).1 i piv).2]⟩
              (cs ++ [pc]) inv3 (by omega)
              (by
                intro p hp
                rcases List.mem_append.1 hp with h1 | h2
                · exact hdp p h1
                · rcases List.mem_singleton.1 h2 with rfl; exact hpiv)
              (by
                intro op hop
                rcases List.mem_append.1 hop with hop1 | hop2
                · rcases List.mem_append.1 hop1 with hop3 | hop4
                  · exact hds op hop3
                  · rcases List.mem_singleton.1 hop4 with rfl
                    exact ⟨hsw, hpr.2, hiR⟩
                · rcases List.mem_singleton.1 hop2 with rfl
                  exact ⟨hpiv, hiR⟩)
              (by
                rw [divFactors_append, divFactors_append, hdf]
                have h1 : divFactors [(swap m pr i).2] = [] := rfl
                have h2 : divFactors [(divide (swap m pr i).1 i piv).2] = [piv] := rfl
                rw [h1, h2]
                simp)
          refine ⟨m', d', cs', i', heq, hinv', by omega, by omega, ?_, hdp', hds', hdf', ?_⟩
          · rw [hcount]; simp; omega
          · intro hlt'
            exact hbrk (by omega)
      -- no-swap branch
      · push_neg at hsw
        subst hsw
        have hpiv : entry m pc pr ≠ 0 := hnz
        rw [if_neg hpiv]
        set piv := entry m pc pr with hpivdef
        have inv2 : Inv R C pr (divide m pr piv).1 cs := Inv_divide piv hinv hpr.2
        have zb2 : ZB (divide m pr piv).1 pr pc R :=
          ZB_divide piv hinv.wf hzbm (le_of_lt hpcC) hpr.2
        have hone : entry (divide m pr piv).1 pc pr = 1 := by
          rw [entry_divide hinv.wf pr piv hpcC hpr.2, if_pos rfl, div_self hpiv]
        have hrows2 : rows (divide m pr piv).1 = R := rows_eq_of_WF inv2.wf hC
        by_cases hlt : pr < rows (divide m pr piv).1 - 1
        · rw [if_pos hlt]
          have hLb : ∀ r ∈ List.range' (pr + 1)
              (rows (divide m pr piv).1 - (pr + 1)), pr < r ∧ r < R := by
            intro r hr
            have := List.mem_range'_1.1 hr
            rw [hrows2] at this
            omega
          obtain ⟨hwf3, hent3⟩ := nullify_below_go_spec pc pr R C hpcC _ _ inv2.wf hLb
            (List.nodup_range' _ _)
          have hstep : ∀ c, c < C → ∀ r,
              entry (nullify_rows_below_pivot (divide m pr piv).1 pc pr).1 c r =
                if pr + 1 ≤ r ∧ r < R then
                  entry (divide m pr piv).1 c r +
                    entry (divide m pr piv).1 c pr * (-(entry (divide m pr piv).1 pc r))
                else entry (divide m pr piv).1 c r := by
            intro c hc r
            rw [nullify_rows_below_pivot]
            rw [hent3 c hc r]
            by_cases hmem : r ∈ List.range' (pr + 1) (rows (divide m pr piv).1 - (pr + 1))
            · have := List.mem_range'_1.1 hmem
              rw [hrows2] at this
              rw [if_pos hmem, if_pos (by omega)]
            · rw [if_neg hmem, if_neg (fun hcon => hmem (List.mem_range'_1.2 (by
                rw [hrows2]; omega)))]
          have inv3 := Inv_extend inv2 hpcC hgt hone zb2 hpr.2 hwf3 hstep
          have hops3 := nullify_below_go_ops pc pr R _ (divide m pr piv).1 hLb
          obtain ⟨m', d', cs', i', heq, hinv', hle1, hle2, hcount, hdp', hds', hdf', hbrk⟩ :=
            ih (pr + 1)
              (nullify_rows_below_pivot (divide m pr piv).1 pc pr).1
              ⟨d.tracked_pivots ++ [piv],
               d.operations ++ [(divide m pr piv).2] ++
                 (nullify_rows_below_pivot (divide m pr piv).1 pc pr).2⟩
              (cs ++ [pc]) inv3 (by omega)
              (by
                intro p hp
                rcases List.mem_append.1 hp with h1 | h2
                · exact hdp p h1
                · rcases List.mem_singleton.1 h2 with rfl; exact hpiv)
              (by
                intro op hop
                rcases List.mem_append.1 hop with hop1 | hop2
                · rcases List.mem_append.1 hop1 with hop3 | hop4
                  · exact hds op hop3
                  · rcases List.mem_singleton.1 hop4 with rfl
                    exact ⟨hpiv, hpr.2⟩
                · obtain ⟨r, kk, rfl, hlo, hhi⟩ := hops3 op hop2
                  exact ⟨by omega, hhi, hpr.2⟩)
              (by
                rw [divFactors_append, divFactors_append, hdf]
                have h2 : divFactors [(divide m pr piv).2] = [piv] := rfl
                have h3 : divFactors
                    (nullify_rows_below_pivot (divide m pr piv).1 pc pr).2 = [] := by
                  rw [divFactors, List.filterMap_eq_nil]
                  intro op hop
                  obtain ⟨r, kk, rfl, _, _⟩ := hops3 op hop
                  rfl
                rw [h2, h3]
                simp)
          refine ⟨m', d', cs', i', heq, hinv', by omega, by omega, ?_, hdp', hds', hdf', ?_⟩
          · rw [hcount]; simp; omega
          · intro hlt'
            exact hbrk (by omega)
        · rw [if_neg hlt]
          have hieq : pr = R - 1 := by rw [hrows2] at hlt; omega
          have hstep : ∀ c, c < C → ∀ r,
              entry (divide m pr piv).1 c r =
                if pr + 1 ≤ r ∧ r < R then
                  entry (divide m pr piv).1 c r +
                    entry (divide m pr piv).1 c pr * (-(entry (divide m pr piv).1 pc r))
                else entry (divide m pr piv).1 c r := by
            intro c hc r
            rw [if_neg (by omega)]
          have inv3 := Inv_extend inv2 hpcC hgt hone zb2 hpr.2 inv2.wf hstep
          obtain ⟨m', d', cs', i', heq, hinv', hle1, hle2, hcount, hdp', hds', hdf', hbrk⟩ :=
            ih (pr + 1)
              (divide m pr piv).1
              ⟨d.tracked_pivots ++ [piv], d.operations ++ [(divide m pr piv).2]⟩
              (cs ++ [pc]) inv3 (by omega)
              (by
                intro p hp
                rcases List.mem_append.1 hp with h1 | h2
                · exact hdp p h1
                · rcases List.mem_singleton.1 h2 with rfl; exact hpiv)
              (by
                intro op hop
                rcases List.mem_append.1 hop with hop1 | hop2
                · exact hds op hop1
                · rcases List.mem_singleton.1 hop2 with rfl
                  exact ⟨hpiv, hpr.2⟩)
              (by
                rw [divFactors_append, hdf]
                have h2 : divFactors [(divide m pr piv).2] = [piv] := rfl
                rw [h2])
          refine ⟨m', d', cs', i', heq, hinv', by omega, by omega, ?_, hdp', hds', hdf', ?_⟩
          · rw [hcount]; simp; omega
          · intro hlt'
            exact hbrk (by omega)

-- ---------------------------------------------------------------------------
-- Packaged specification of a full reduction run
-- ---------------------------------------------------------------------------

theorem pairwise_get_lt {cs : List Nat} (hmono : List.Pairwise (· < ·) cs) :
    ∀ (a b : Nat) (ha : a < cs.length) (hb : b < cs.length), a < b →
      cs.get ⟨a, ha⟩ < cs.get ⟨b, hb⟩ := by
  intro a b ha hb hab
  exact List.pairwise_iff_get.1 hmono ⟨a, ha⟩ ⟨b, hb⟩ hab

theorem pairwise_lt_full {cs : List Nat} {n : Nat} (hlen : cs.length = n)
    (hmono : List.Pairwise (· < ·) cs) (hbound : ∀ c ∈ cs, c < n) :
    ∀ (j : Nat) (hj : j < cs.length), cs.get ⟨j, hj⟩ = j := by
  have hge : ∀ (j : Nat) (hj : j < cs.length), j ≤ cs.get ⟨j, hj⟩ := by
    intro j
    induction j with
    | zero => intro hj; exact Nat.zero_le _
    | succ a ihj =>
      intro hj
      have ha : a < cs.length := by omega
      have h1 := ihj ha
      have h2 := pairwise_get_lt hmono a (a + 1) ha hj (by omega)
      omega
  have hle : ∀ (t j : Nat) (hj : j < cs.length), j + t = n - 1 → cs.get ⟨j, hj⟩ ≤ j := by
    intro t
    induction t with
    | zero =>
      intro j hj hjt
      have := hbound _ (List.get_mem cs j hj)
      omega
    | succ a ihj =>
      intro j hj hjt
      have hj1 : j + 1 < cs.length := by omega
      have h1 := ihj (j + 1) hj1 (by omega)
      have h2 := pairwise_get_lt hmono j (j + 1) hj hj1 (by omega)
      omega
  intro j hj
  have h1 := hge j hj
  have h2 := hle (n - 1 - j) j hj (by rw [← hlen] at *; omega)
  omega

theorem Inv_init (R C : Nat) (A : Mx) (hwf : WF A R C) : Inv R C 0 A [] := by
  refine ⟨hwf, rfl, List.Pairwise.nil, by simp, ?_, ?_, ?_, ?_⟩
  · intro j hj; simp at hj
  · intro j hj; simp at hj
  · intro j hj; simp at hj
  · intro r _ _ c' c _ hc; simp at hc

/-- Full specification of `reduced_row_echelon_form` on a well-formed matrix:
it succeeds, and the reduced matrix satisfies the forward-REF invariant with
exactly `tracked_pivots.length` pivots; moreover every tracked pivot is
non-zero, every recorded operation is safe, the Division factors are exactly
the tracked pivots in order, and every row past the pivots is all zero. -/
theorem rre_spec (A : Mx) (R C : Nat) (hwf : WF A R C) :
    ∃ (M : Mx) (d : RowEchelonDetails) (cs : List Nat),
      reduced_row_echelon_form A = some (M, d) ∧
      Inv R C d.tracked_pivots.length M cs ∧
      d.tracked_pivots.length ≤ min R C ∧
      (∀ p ∈ d.tracked_pivots, p ≠ 0) ∧
      (∀ op ∈ d.operations, DetSafe R op) ∧
      divFactors d.operations = d.tracked_pivots ∧
      (∀ c, c < C → ∀ r, d.tracked_pivots.length ≤ r → r < R → entry M c r = 0) := by
  unfold reduced_row_echelon_form
  by_cases he : A.isEmpty
  · rw [if_pos he]
    have hC : C = 0 := by
      rw [← hwf.1]
      exact List.length_eq_zero.2 (List.isEmpty_iff.1 he)
    subst hC
    exact ⟨A, ⟨[], []⟩, [], rfl, Inv_init _ _ _ hwf, by simp, by simp, by simp, rfl,
           fun c hc => by omega⟩
  · rw [if_neg he]
    have hC : 0 < C := by
      rw [← hwf.1]
      cases A with
      | nil => exact absurd rfl he
      | cons a as => simp
    have hrows : rows A = R := rows_eq_of_WF hwf hC
    have hcols : cols A = C := hwf.1
    rw [hrows, hcols, List.range_eq_range']
    obtain ⟨m', d', cs', i', heq, hinv', hle1, hle2, hcount, hdp', hds', hdf', hbrk⟩ :=
      rref_go_master R C (min R C) 0 A ⟨[], []⟩ [] (Inv_init R C A hwf) (by omega)
        (by simp) (by simp) rfl
    have hplen : d'.tracked_pivots.length = i' := by
      rw [hcount]; simp
    refine ⟨m', d', cs', heq, hplen ▸ hinv', by omega, hdp', hds', hdf', ?_⟩
    rw [hplen]
    intro c hc r hir hrR
    by_cases hbreak : i' < min R C
    · exact hbrk (by omega) c hc r hir hrR
    · have hieq : i' = min R C := by omega
      by_cases hRC : R ≤ C
      · omega
      · -- C < R : all C columns are pivot columns, so cs' is [0, ..., C-1]
        have hiC : i' = C := by omega
        have hlenc : cs'.length = C := by rw [hinv'.len]; omega
        have hfull := pairwise_lt_full hlenc hinv'.mono
          (fun c hcm => hinv'.bound c hcm)
        have hC1 : C - 1 < cs'.length := by omega
        have hmem : C - 1 ∈ cs' := by
          have := hfull (C - 1) hC1
          rw [← this]
          exact List.get_mem cs' _ _
        exact hinv'.front_zero r (by omega) hrR c (C - 1) (by omega) hmem

-- ---------------------------------------------------------------------------
-- Rank agreement and engine totality
-- ---------------------------------------------------------------------------

theorem findIdx?_eq_some_of_first {α : Type} (q : α → Bool) :
    ∀ (l : List α) (j : Nat) (hj : j < l.length),
      q (l.get ⟨j, hj⟩) = true →
      (∀ t (ht : t < j), q (l.get ⟨t, by omega⟩) = false) →
      l.findIdx? q = some j := by
  intro l
  induction l with
  | nil => intro j hj; simp at hj
  | cons a as ih =>
    intro j hj hq hprev
    rw [List.findIdx?_cons]
    cases j with
    | zero =>
      have hqa : q a = true := hq
      rw [hqa]
      simp
    | succ n =>
      have ha : q a = false := hprev 0 (by omega)
      rw [ha]
      simp only [Bool.false_eq_true, if_false, List.findIdx?_succ]
      rw [ih n (by simpa using hj) hq (fun t ht => hprev (t + 1) (by omega))]
      rfl

theorem entry_get_col (M : Mx) (c : Nat) (hc : c < M.length) (r : Nat) :
    (M.get ⟨c, hc⟩).getD r 0 = entry M c r := by
  unfold entry
  rw [List.getD_eq_get M [] hc]

/-- A row of the row-major view is all zero exactly when all its entries are;
rows with a pivot are not all zero.  Core fact: the position of the first
all-zero row of the reduced matrix is the pivot count (general helper). -/
theorem rank_position_eq (M : Mx) (R C : Nat) (p : Nat) (cs : List Nat)
    (hinv : Inv R C p M cs) (hpR : p ≤ R)
    (htail : ∀ c, c < C → ∀ r, p ≤ r → r < R → entry M c r = 0) (hC : 0 < C) :
    ((rowsOf M).findIdx? (fun row => row.all (fun v => decide (v = 0)))).getD R = p := by
  have hrows : rows M = R := rows_eq_of_WF hinv.wf hC
  have hlenM : M.length = C := hinv.wf.1
  have hrowlen : ∀ r, (M.map (fun col => col.getD r 0)).length = C := by
    intro r; simp [hlenM]
  have hrowget : ∀ (r c : Nat) (hc : c < C),
      (M.map (fun col => col.getD r 0)).get ⟨c, by rw [hrowlen]; exact hc⟩ =
        entry M c r := by
    intro r c hc
    rw [List.get_map]
    exact entry_get_col M c (by rw [hlenM]; exact hc) r
  have hallzero : ∀ r, p ≤ r → r < R →
      (M.map (fun col => col.getD r 0)).all (fun v => decide (v = 0)) = true := by
    intro r hpr hrR
    rw [List.all_eq_true]
    intro x hx
    obtain ⟨col, hcol, rfl⟩ := List.mem_map.1 hx
    obtain ⟨⟨c, hcl⟩, rfl⟩ := List.mem_iff_get.1 hcol
    rw [entry_get_col M c hcl r]
    exact decide_eq_true (htail c (by rw [← hlenM]; exact hcl) r hpr hrR)
  have hpivrow : ∀ (j : Nat) (hj : j < p),
      (M.map (fun col => col.getD j 0)).all (fun v => decide (v = 0)) = false := by
    intro j hj
    have hj' : j < cs.length := by rw [hinv.len]; exact hj
    have hone := hinv.pivot_one j hj'
    rw [Bool.eq_false_iff]
    intro hall
    rw [List.all_eq_true] at hall
    have hcsC : cs.get ⟨j, hj'⟩ < C := hinv.bound _ (List.get_mem cs j hj')
    have hmem : (M.get ⟨cs.get ⟨j, hj'⟩, by rw [hlenM]; exact hcsC⟩).getD j 0 ∈
        M.map (fun col => col.getD j 0) := by
      rw [List.mem_map]
      exact ⟨M.get ⟨cs.get ⟨j, hj'⟩, by rw [hlenM]; exact hcsC⟩,
             List.get_mem M _ _, rfl⟩
    have := hall _ hmem
    rw [entry_get_col M _ _ j, hone] at this
    simp at this
  unfold rowsOf
  rw [hrows]
  by_cases hpR2 : p < R
  · have hfind : ((List.range R).map (fun r => M.map (fun col => col.getD r 0))).findIdx?
        (fun row => row.all (fun v => decide (v = 0))) = some p := by
      apply findIdx?_eq_some_of_first
      · rw [List.get_map]
        simp only [List.get_range]
        exact hallzero p (le_refl _) hpR2
      · intro t ht
        rw [List.get_map]
        simp only [List.get_range]
        exact hpivrow t ht
      · simp
        exact hpR2
    rw [hfind]
    rfl
  · have hpeq : p = R := by omega
    have hfind : ((List.range R).map (fun r => M.map (fun col => col.getD r 0))).findIdx?
        (fun row => row.all (fun v => decide (v = 0))) = none := by
      rw [List.findIdx?_eq_none_iff]
      intro x hx
      obtain ⟨r, hr, rfl⟩ := List.mem_map.1 hx
      have hrR : r < R := List.mem_range.1 hr
      exact hpivrow r (by omega)
    rw [hfind]
    rw [hpeq]
    rfl

/-- Engine totality plus rank agreement, packaged (general helper). -/
theorem rank_agreement (A : Mx) (R C : Nat) (hwf : WF A R C) :
    ∃ (M : Mx) (d : RowEchelonDetails),
      reduced_row_echelon_form A = some (M, d) ∧
      rank A = some d.tracked_pivots.length ∧
      rank_from_position A = some d.tracked_pivots.length := by
  obtain ⟨M, d, cs, heq, hinv, hple, hdp, hds, hdf, htail⟩ := rre_spec A R C hwf
  refine ⟨M, d, heq, ?_, ?_⟩
  · rw [rank, row_echelon_with_details, heq]
    rfl
  · rw [rank_from_position, row_echelon, heq]
    simp only [Option.map]
    by_cases hC : 0 < C
    · have hrA : rows A = R := rows_eq_of_WF hwf hC
      rw [hrA]
      rw [rank_position_eq M R C _ cs hinv (by omega) htail hC]
    · have hC0 : C = 0 := by omega
      subst hC0
      have hA : A = [] := List.length_eq_zero.1 hwf.1
      subst hA
      have : reduced_row_echelon_form ([] : Mx) = some ([], ⟨[], []⟩) := rfl
      rw [this] at heq
      obtain ⟨h1, h2⟩ := Prod.mk.injEq _ _ _ _ ▸ Option.some.inj heq
      rw [← h1, ← h2]
      rfl

/-- C8: for every well-formed matrix (any shape, the empty matrix included),
the tracked-pivot-count rank (src/matrix/functions/rank.rs) agrees with the
rank computed from the reduced matrix as the index of its first all-zero row,
or the row count when there is none (src/matrix/functions/row_echelon.rs). -/
theorem C8_rank_implementations_agree (A : Mx) (R C : Nat) (hwf : WF A R C) :
    rank A = rank_from_position A := by
  obtain ⟨M, d, _, h1, h2⟩ := rank_agreement A R C hwf
  rw [h1, h2]

/-- Witness for C8 at the singular matrix with columns [1,2] and [2,4]. -/
theorem C8_rank_implementations_agree_witness :
    rank [[(1 : ℚ), 2], [2, 4]] = rank_from_position [[(1 : ℚ), 2], [2, 4]] :=
  C8_rank_implementations_agree [[(1 : ℚ), 2], [2, 4]] 2 2 (by decide)

/-- C9: the reduction engine never fails on a well-formed matrix of any
shape: the reduction always completes (equivalently, the non-zero-pivot
assertion inside scale_pivot_row never fires), and every Division operation
it records — the pivot normalization — divides by a non-zero scalar. -/
theorem C9_engine_never_fails (A : Mx) (R C : Nat) (hwf : WF A R C) :
    ∃ M d, reduced_row_echelon_form A = some (M, d) ∧
      ∀ r k, RowEchelonOperation.Division r k ∈ d.operations → k ≠ 0 := by
  obtain ⟨M, d, cs, heq, _, _, _, hds, _, _⟩ := rre_spec A R C hwf
  exact ⟨M, d, heq, fun r k hmem => (hds _ hmem).1⟩

/-- Witness for C9 at the all-zero 2x2 matrix (a degenerate input: no pivot
exists in any column, so the engine must stop without normalizing). -/
theorem C9_engine_never_fails_witness :
    ∃ M d, reduced_row_echelon_form [[(0 : ℚ), 0], [0, 0]] = some (M, d) ∧
      ∀ r k, RowEchelonOperation.Division r k ∈ d.operations → k ≠ 0 :=
  C9_engine_never_fails [[(0 : ℚ), 0], [0, 0]] 2 2 (by decide)

-- ---------------------------------------------------------------------------
-- The code's row-echelon-form validator accepts the reduced matrix
-- ---------------------------------------------------------------------------

theorem is_ref_go_cons (saved : Nat) (row : List ℚ) (rest : List (List ℚ)) :
    is_ref_go saved (row :: rest) =
      match first_non_zero_index row with
      | none => rest.all (fun r => r.all (fun v => decide (v = 0)))
      | some idx => if idx ≤ saved then false else is_ref_go idx rest := rfl

theorem is_ref_go_cons_some (saved idx : Nat) (row : List ℚ)
    (rest : List (List ℚ)) (h : first_non_zero_index row = some idx) :
    is_ref_go saved (row :: rest) =
      if idx ≤ saved then false else is_ref_go idx rest := by
  rw [is_ref_go_cons, h]

theorem is_ref_go_cons_none (saved : Nat) (row : List ℚ)
    (rest : List (List ℚ)) (h : first_non_zero_index row = none) :
    is_ref_go saved (row :: rest) =
      rest.all (fun r => r.all (fun v => decide (v = 0))) := by
  rw [is_ref_go_cons, h]

theorem first_nzi_pivot_row {M : Mx} {R C p : Nat} {cs : List Nat}
    (hinv : Inv R C p M cs) (j : Nat) (hj : j < cs.length) :
    first_non_zero_index (M.map (fun col => col.getD j 0)) =
      some (cs.get ⟨j, hj⟩) := by
  have hlenM : M.length = C := hinv.wf.1
  have hcsC : cs.get ⟨j, hj⟩ < C := hinv.bound _ (List.get_mem cs j hj)
  unfold first_non_zero_index
  refine findIdx?_eq_some_of_first _ _ _
    (by simp only [List.length_map]; rw [hlenM]; exact hcsC) ?_ ?_
  · rw [List.get_map]
    rw [entry_get_col M _ (Nat.lt_of_lt_of_eq hcsC hlenM.symm) j]
    rw [hinv.pivot_one j hj]
    simp
  · intro t ht
    rw [List.get_map]
    have htC : t < C := by omega
    rw [entry_get_col M t (Nat.lt_of_lt_of_eq htC hlenM.symm) j]
    rw [hinv.left_zero j hj t ht]
    simp

theorem row_all_zero {M : Mx} {R C : Nat} (hwf : WF M R C) (r : Nat)
    (hz : ∀ c, c < C → entry M c r = 0) :
    (M.map (fun col => col.getD r 0)).all (fun v => decide (v = 0)) = true := by
  rw [List.all_eq_true]
  intro x hx
  obtain ⟨col, hcol, rfl⟩ := List.mem_map.1 hx
  obtain ⟨⟨c, hcl⟩, rfl⟩ := List.mem_iff_get.1 hcol
  rw [entry_get_col M c hcl r]
  exact decide_eq_true (hz c (by rw [← hwf.1]; exact hcl))

theorem first_nzi_zero_row {M : Mx} {R C : Nat} (hwf : WF M R C) (r : Nat)
    (hz : ∀ c, c < C → entry M c r = 0) :
    first_non_zero_index (M.map (fun col => col.getD r 0)) = none := by
  unfold first_non_zero_index
  rw [List.findIdx?_eq_none_iff]
  intro x hx
  obtain ⟨col, hcol, rfl⟩ := List.mem_map.1 hx
  obtain ⟨⟨c, hcl⟩, rfl⟩ := List.mem_iff_get.1 hcol
  rw [entry_get_col M c hcl r]
  simp only [decide_not]
  rw [decide_eq_true (hz c (by rw [← hwf.1]; exact hcl))]
  rfl

theorem tail_rows_all_zero {M : Mx} {R C p : Nat} (hwf : WF M R C)
    (htail : ∀ c, c < C → ∀ r, p ≤ r → r < R → entry M c r = 0)
    (j : Nat) (hpj : p ≤ j) (n : Nat) (hn : j + n ≤ R) :
    ((List.range' j n).map (fun r => M.map (fun col => col.getD r 0))).all
      (fun row => row.all (fun v => decide (v = 0))) = true := by
  rw [List.all_eq_true]
  intro row hrow
  obtain ⟨r, hr, rfl⟩ := List.mem_map.1 hrow
  have hrb := List.mem_range'_1.1 hr
  exact row_all_zero hwf r (fun c hc => htail c hc r (by omega) (by omega))

theorem is_ref_go_of_inv {M : Mx} {R C p : Nat} {cs : List Nat}
    (hinv : Inv R C p M cs)
    (htail : ∀ c, c < C → ∀ r, p ≤ r → r < R → entry M c r = 0) (hpR : p ≤ R) :
    ∀ (n j : Nat), j + n = R → 1 ≤ j → j ≤ p →
      ∀ (hj1 : j - 1 < cs.length),
      is_ref_go (cs.get ⟨j - 1, hj1⟩)
        ((List.range' j n).map (fun r => M.map (fun col => col.getD r 0))) = true := by
  intro n
  induction n with
  | zero => intro j _ _ _ _; rfl
  | succ n ihn =>
    intro j hjn hj1 hjp hj1l
    rw [List.range'_succ, List.map_cons]
    by_cases hjlt : j < p
    · have hjcs : j < cs.length := by rw [hinv.len]; exact hjlt
      rw [is_ref_go_cons_some _ _ _ _ (first_nzi_pivot_row hinv j hjcs)]
      have hmono := pairwise_get_lt hinv.mono (j - 1) j hj1l hjcs (by omega)
      rw [if_neg (Nat.not_le.2 hmono)]
      have := ihn (j + 1) (by omega) (by omega) (by omega)
        (by simpa using hjcs)
      simpa using this
    · have hjeq : j = p := by omega
      subst hjeq
      rw [is_ref_go_cons_none _ _ _
        (first_nzi_zero_row hinv.wf j (fun c hc => htail c hc j (le_refl _) (by omega)))]
      exact tail_rows_all_zero hinv.wf htail (j + 1) (by omega) n (by omega)

theorem is_row_echelon_form_head_none (m : Mx) (row0 : List ℚ)
    (rest : List (List ℚ)) (h : rowsOf m = row0 :: rest) (hR0 : rows m ≠ 0)
    (hf : first_non_zero_index row0 = none) :
    is_row_echelon_form m =
      rest.all (fun r => r.all (fun v => decide (v = 0))) := by
  unfold is_row_echelon_form
  rw [if_neg hR0, h]
  show (match first_non_zero_index row0 with
    | none => rest.all (fun r => r.all (fun v => decide (v = 0)))
    | some idx => is_ref_go idx rest) = _
  rw [hf]

theorem is_row_echelon_form_head_some (m : Mx) (row0 : List ℚ) (idx : Nat)
    (rest : List (List ℚ)) (h : rowsOf m = row0 :: rest) (hR0 : rows m ≠ 0)
    (hf : first_non_zero_index row0 = some idx) :
    is_row_echelon_form m = is_ref_go idx rest := by
  unfold is_row_echelon_form
  rw [if_neg hR0, h]
  show (match first_non_zero_index row0 with
    | none => rest.all (fun r => r.all (fun v => decide (v = 0)))
    | some idx2 => is_ref_go idx2 rest) = _
  rw [hf]

/-- The code's own validator accepts any matrix satisfying the forward-REF
invariant with all-zero tail rows (general helper). -/
theorem validator_accepts {M : Mx} {R C p : Nat} {cs : List Nat}
    (hinv : Inv R C p M cs)
    (htail : ∀ c, c < C → ∀ r, p ≤ r → r < R → entry M c r = 0) (hpR : p ≤ R) :
    is_row_echelon_form M = true := by
  by_cases hR0 : rows M = 0
  · unfold is_row_echelon_form
    rw [if_pos hR0]
  · have hC : 0 < C := by
      by_contra hc
      have : C = 0 := by omega
      subst this
      have : M = [] := List.length_eq_zero.1 hinv.wf.1
      subst this
      exact hR0 rfl
    have hrows : rows M = R := rows_eq_of_WF hinv.wf hC
    have hR : 0 < R := by omega
    have hdecomp : rowsOf M =
        (M.map (fun col => col.getD 0 0)) ::
          (List.range' 1 (R - 1)).map (fun r => M.map (fun col => col.getD r 0)) := by
      unfold rowsOf
      rw [hrows, List.range_eq_range']
      have hR1 : R = (R - 1) + 1 := by omega
      have : List.range' 0 R = 0 :: List.range' 1 (R - 1) := by
        conv_lhs => rw [hR1, List.range'_succ]
      rw [this, List.map_cons]
    by_cases hp0 : p = 0
    · rw [is_row_echelon_form_head_none M _ _ hdecomp hR0
        (first_nzi_zero_row hinv.wf 0 (fun c hc => htail c hc 0 (hp0 ▸ le_refl _) hR))]
      exact tail_rows_all_zero hinv.wf htail 1 (by omega) (R - 1) (by omega)
    · have h0cs : 0 < cs.length := by rw [hinv.len]; omega
      rw [is_row_echelon_form_head_some M _ _ _ hdecomp hR0
        (first_nzi_pivot_row hinv 0 h0cs)]
      have := is_ref_go_of_inv hinv htail hpR (R - 1) 1 (by omega) (by omega)
        (by omega) h0cs
      simpa using this

/-- C2 (amended): `row_echelon` returns a matrix in (forward) row echelon
form — the code's own validator accepts it, every pivot is 1 with only zeros
below it and to its left, pivot columns strictly increase downward, and
all-zero rows are exactly the rows after the last pivot — but entries
*above* a pivot may remain non-zero: `row_echelon` performs no
back-substitution (that pass exists only inside `inverse`). -/
theorem C2_row_echelon_forward_REF (A : Mx) (R C : Nat) (hwf : WF A R C) :
    ∃ M, row_echelon A = some M ∧
      is_row_echelon_form M = true ∧
      ∃ p cs, cs.length = p ∧ List.Pairwise (· < ·) cs ∧ (∀ c ∈ cs, c < C) ∧
        (∀ (j : Nat) (hj : j < cs.length), entry M (cs.get ⟨j, hj⟩) j = 1) ∧
        (∀ (j : Nat) (hj : j < cs.length), ∀ c < cs.get ⟨j, hj⟩, entry M c j = 0) ∧
        (∀ (j : Nat) (hj : j < cs.length), ∀ r, j < r → r < R →
          entry M (cs.get ⟨j, hj⟩) r = 0) ∧
        (∀ c, c < C → ∀ r, p ≤ r → r < R → entry M c r = 0) := by
  obtain ⟨M, d, cs, heq, hinv, hple, _, _, _, htail⟩ := rre_spec A R C hwf
  exact ⟨M, by rw [row_echelon, heq]; rfl, validator_accepts hinv htail (by omega),
         d.tracked_pivots.length, cs, hinv.len, hinv.mono, hinv.bound,
         hinv.pivot_one, hinv.left_zero, hinv.below_zero, htail⟩

/-- Witness for C2 at the matrix with columns [1,2] and [3,4]. -/
theorem C2_row_echelon_forward_REF_witness :
    ∃ M, row_echelon [[(1 : ℚ), 2], [3, 4]] = some M ∧
      is_row_echelon_form M = true ∧
      ∃ p cs, cs.length = p ∧ List.Pairwise (· < ·) cs ∧ (∀ c ∈ cs, c < 2) ∧
        (∀ (j : Nat) (hj : j < cs.length), entry M (cs.get ⟨j, hj⟩) j = 1) ∧
        (∀ (j : Nat) (hj : j < cs.length), ∀ c < cs.get ⟨j, hj⟩, entry M c j = 0) ∧
        (∀ (j : Nat) (hj : j < cs.length), ∀ r, j < r → r < 2 →
          entry M (cs.get ⟨j, hj⟩) r = 0) ∧
        (∀ c, c < 2 → ∀ r, p ≤ r → r < 2 → entry M c r = 0) :=
  C2_row_echelon_forward_REF [[(1 : ℚ), 2], [3, 4]] 2 2 (by decide)

/-- Counterexample to C2 as stated: on the matrix with columns [1,0] and
[1,1] (rows (1 1) and (0 1)), `row_echelon` returns the matrix unchanged;
row 1's leading one sits in column 1, yet the entry above that pivot
(row 0, column 1) is 1, not zero — the result is not in *reduced* row
echelon form, because `row_echelon` never zeroes entries above pivots. -/
theorem C2_counterexample :
    row_echelon [[(1 : ℚ), 0], [1, 1]] = some [[(1 : ℚ), 0], [1, 1]] ∧
    first_non_zero_index ((rowsOf [[(1 : ℚ), 0], [1, 1]]).getD 1 []) = some 1 ∧
    entry [[(1 : ℚ), 0], [1, 1]] 1 0 ≠ 0 := by
  refine ⟨?_, by decide, by decide⟩
  norm_num [row_echelon, reduced_row_echelon_form, rref_go, next_pivot,
    next_pivot_cols, next_pivot_in_col, nullify_rows_below_pivot,
    nullify_below_go, swap, divide, row_add, entry, rows, cols,
    List.range_succ, List.range']

-- ---------------------------------------------------------------------------
-- Inverse: singularity test and success
-- ---------------------------------------------------------------------------

theorem is_square_of_WF {A : Mx} {n : Nat} (hwf : WF A n n) :
    is_square A = true := by
  unfold is_square
  by_cases hn : 0 < n
  · rw [rows_eq_of_WF hwf hn, show cols A = n from hwf.1]
    simp
  · have hn0 : n = 0 := by omega
    subst hn0
    have : A = [] := List.length_eq_zero.1 hwf.1
    subst this
    rfl

/-- Complete characterization of `inverse` on a well-formed square matrix
(general helper): the reduction succeeds, and inverse returns SingularMatrix
exactly when the pivot count falls short of the size; with a full set of
pivots it returns a computed matrix. -/
theorem inverse_spec (A : Mx) (n : Nat) (hwf : WF A n n) :
    ∃ M d, reduced_row_echelon_form A = some (M, d) ∧
      d.tracked_pivots.length ≤ n ∧
      (d.tracked_pivots.length < n →
        inverse A = some (Except.error Error.SingularMatrix)) ∧
      (d.tracked_pivots.length = n →
        inverse A = some (Except.ok (apply_multiple (identity n)
          (d.operations ++ (back_sub_go M (List.range' 1 (n - 1))).2)))) := by
  obtain ⟨M, d, cs, heq, hinv, hple, hdp, hds, hdf, htail⟩ := rre_spec A n n hwf
  have hsq := is_square_of_WF hwf
  have hrowsM : rows M = d.tracked_pivots.length → True := fun _ => trivial
  have hcolsA : cols A = n := hwf.1
  refine ⟨M, d, heq, by omega, ?_, ?_⟩
  · intro hlt
    have hn : 0 < n := by omega
    have hrM : rows M = n := rows_eq_of_WF hinv.wf hn
    unfold inverse inverseS
    rw [if_neg (by rw [hsq]; simp)]
    rw [row_echelon_with_details, heq]
    simp only
    rw [if_pos (by rw [hrM]; omega)]
  · intro heqn
    unfold inverse inverseS
    rw [if_neg (by rw [hsq]; simp)]
    rw [row_echelon_with_details, heq]
    simp only
    have hrM : rows M = n := by
      by_cases hn : 0 < n
      · exact rows_eq_of_WF hinv.wf hn
      · have hn0 : n = 0 := by omega
        subst hn0
        have : M = [] := List.length_eq_zero.1 hinv.wf.1
        subst this
        rfl
    rw [if_neg (by rw [hrM]; omega)]
    have hbs : back_substitution M =
        some (back_sub_go M (List.range' 1 (cols M - 1))).2 := by
      unfold back_substitution
      rw [if_pos (validator_accepts hinv htail (by omega))]
    have hcM : cols M = n := hinv.wf.1
    rw [hbs, hcM, hcolsA]

/-- C3: on a well-formed square matrix, `inverse` returns the error value
SingularMatrix exactly when the reduction records fewer pivots than the
matrix has rows; with a full set of pivots it returns a success value, and
SingularMatrix is the only error value `inverse` can produce. -/
theorem C3_inverse_singular_characterization (A : Mx) (n : Nat) (hwf : WF A n n) :
    ∃ M d, reduced_row_echelon_form A = some (M, d) ∧
      (inverse A = some (Except.error Error.SingularMatrix) ↔
        d.tracked_pivots.length < n) ∧
      (d.tracked_pivots.length = n → ∃ B, inverse A = some (Except.ok B)) ∧
      (∀ e, inverse A = some (Except.error e) → e = Error.SingularMatrix) := by
  obtain ⟨M, d, heq, hple, hsing, hok⟩ := inverse_spec A n hwf
  refine ⟨M, d, heq, ⟨?_, hsing⟩, fun h => ⟨_, hok h⟩, fun e _ => by cases e; rfl⟩
  intro herr
  by_contra hge
  have heqn : d.tracked_pivots.length = n := by omega
  rw [hok heqn] at herr
  simp at herr

/-- Witness for C3 at the singular matrix with columns [1,2] and [2,4]. -/
theorem C3_inverse_singular_characterization_witness :
    ∃ M d, reduced_row_echelon_form [[(1 : ℚ), 2], [2, 4]] = some (M, d) ∧
      (inverse [[(1 : ℚ), 2], [2, 4]] = some (Except.error Error.SingularMatrix) ↔
        d.tracked_pivots.length < 2) ∧
      (d.tracked_pivots.length = 2 →
        ∃ B, inverse [[(1 : ℚ), 2], [2, 4]] = some (Except.ok B)) ∧
      (∀ e, inverse [[(1 : ℚ), 2], [2, 4]] = some (Except.error e) →
        e = Error.SingularMatrix) :=
  C3_inverse_singular_characterization [[(1 : ℚ), 2], [2, 4]] 2 (by decide)

-- ---------------------------------------------------------------------------
-- Determinant totality (C5)
-- ---------------------------------------------------------------------------

/-- C5 (amended): on a well-formed matrix, `determinant` completes normally
exactly when the matrix is square AND has at most 4 columns: squareness is
not the only precondition — the second assertion `cols <= 4` aborts every
square input of size 5 or more. -/
theorem C5_determinant_requires_size_at_most_4 (A : Mx) (R C : Nat)
    (hwf : WF A R C) :
    (∃ v, determinant A = some v) ↔ (is_square A = true ∧ cols A ≤ 4) := by
  constructor
  · rintro ⟨v, hv⟩
    unfold determinant at hv
    by_cases hsq : is_square A = true
    · refine ⟨hsq, ?_⟩
      by_cases h4 : cols A ≤ 4
      · exact h4
      · rw [if_neg (not_not_intro hsq), if_pos h4] at hv
        exact absurd hv (by simp)
    · rw [if_pos hsq] at hv
      exact absurd hv (by simp)
  · rintro ⟨hsq, h4⟩
    unfold determinant
    rw [if_neg (not_not_intro hsq), if_neg (not_not_intro h4)]
    have hcols : cols A = C := hwf.1
    have hC4 : C ≤ 4 := hcols ▸ h4
    interval_cases C
    · rw [hcols]; exact ⟨0, rfl⟩
    · rw [hcols]; exact ⟨entry A 0 0, rfl⟩
    · rw [hcols]; exact ⟨_, rfl⟩
    · rw [hcols]; exact ⟨_, rfl⟩
    · rw [hcols]
      show ∃ v, determinant_for_dimension_4_and_more A = some v
      obtain ⟨M, d, cs, heq, hinv, hple, hdp, hds, hdf, htail⟩ := rre_spec A R 4 hwf
      unfold determinant_for_dimension_4_and_more
      rw [if_neg (not_not_intro hsq), if_neg (not_not_intro (by rw [hcols])), heq]
      simp only
      by_cases hz : (match (rowsOf M).getLast? with
          | some r => r.all (fun k => decide (k = 0))
          | none => false) = true
      · rw [if_pos hz]
        exact ⟨0, rfl⟩
      · rw [if_neg hz]
        cases hdt : d.tracked_pivots with
        | nil => exact ⟨0, rfl⟩
        | cons p ps => exact ⟨_, rfl⟩

/-- Witness for C5 at the square matrix with columns [1,2] and [3,4]. -/
theorem C5_determinant_requires_size_at_most_4_witness :
    (∃ v, determinant [[(1 : ℚ), 2], [3, 4]] = some v) ↔
      (is_square [[(1 : ℚ), 2], [3, 4]] = true ∧ cols [[(1 : ℚ), 2], [3, 4]] ≤ 4) :=
  C5_determinant_requires_size_at_most_4 [[(1 : ℚ), 2], [3, 4]] 2 2 (by decide)

/-- Counterexample to C5 as stated: the 5x5 diagonal matrix diag(2,...,2)
is square, yet `determinant` does not complete on it — the assertion
`cols <= 4` aborts the call, so squareness is not the only precondition. -/
theorem C5_counterexample :
    determinant [[(2 : ℚ), 0, 0, 0, 0], [0, 2, 0, 0, 0], [0, 0, 2, 0, 0],
      [0, 0, 0, 2, 0], [0, 0, 0, 0, 2]] = none ∧
    is_square [[(2 : ℚ), 0, 0, 0, 0], [0, 2, 0, 0, 0], [0, 0, 2, 0, 0],
      [0, 0, 0, 2, 0], [0, 0, 0, 0, 2]] = true := by
  constructor
  · rfl
  · rfl

-- ---------------------------------------------------------------------------
-- Determinant bridge: elementary operations and Matrix.det
-- ---------------------------------------------------------------------------

theorem WF_multiply {m : Mx} {R C : Nat} (hwf : WF m R C) (row : Nat) (k : ℚ) :
    WF (multiply m row k).1 R C :=
  WF_map hwf _ (fun col h => by simp [List.length_set, h])

theorem WF_apply {m : Mx} {R C : Nat} (hwf : WF m R C) (op : RowEchelonOperation) :
    WF (apply m op) R C := by
  cases op with
  | Swap a b => exact WF_swap hwf a b
  | Multipication r k => exact WF_multiply hwf r k
  | Division r k => exact WF_divide hwf r k
  | RowAddition a b k => exact WF_row_add hwf a b k

theorem toMat_swap {m : Mx} {n : Nat} (hwf : WF m n n) {a b : Nat} (ha : a < n)
    (hb : b < n) :
    toMat n n (swap m a b).1 =
      (toMat n n m).submatrix (Equiv.swap ⟨a, ha⟩ ⟨b, hb⟩) id := by
  funext r c
  rw [Matrix.submatrix_apply]
  unfold toMat
  rw [entry_swap hwf r.val c.2 ha hb]
  by_cases hrb : r = (⟨b, hb⟩ : Fin n)
  · subst hrb
    rw [if_pos rfl, Equiv.swap_apply_right]
    rfl
  · have hrb' : r.val ≠ b := fun h => hrb (Fin.ext h)
    rw [if_neg hrb']
    by_cases hra : r = (⟨a, ha⟩ : Fin n)
    · subst hra
      rw [if_pos rfl, Equiv.swap_apply_left]
      rfl
    · have hra' : r.val ≠ a := fun h => hra (Fin.ext h)
      rw [if_neg hra', Equiv.swap_apply_of_ne_of_ne hra hrb]
      rfl

theorem det_toMat_swap {m : Mx} {n : Nat} (hwf : WF m n n) {a b : Nat}
    (ha : a < n) (hb : b < n) (hab : a ≠ b) :
    (toMat n n (swap m a b).1).det = -1 * (toMat n n m).det := by
  rw [toMat_swap hwf ha hb, Matrix.det_permute,
      Equiv.Perm.sign_swap (Fin.ne_of_val_ne hab)]
  norm_num

theorem toMat_divide {m : Mx} {n : Nat} (hwf : WF m n n) {row : Nat}
    (hrow : row < n) (k : ℚ) :
    toMat n n (divide m row k).1 =
      (toMat n n m).updateRow ⟨row, hrow⟩
        (k⁻¹ • (toMat n n m ⟨row, hrow⟩)) := by
  funext r c
  rw [Matrix.updateRow_apply]
  unfold toMat
  rw [entry_divide hwf r.val k c.2 hrow]
  by_cases hr : r = (⟨row, hrow⟩ : Fin n)
  · subst hr
    rw [if_pos rfl, if_pos rfl]
    show entry m c.val row / k = k⁻¹ * entry m c.val row
    ring
  · have hr' : r.val ≠ row := fun h => hr (Fin.ext h)
    rw [if_neg hr', if_neg hr]

theorem det_toMat_divide {m : Mx} {n : Nat} (hwf : WF m n n) {row : Nat}
    (hrow : row < n) (k : ℚ) :
    (toMat n n (divide m row k).1).det = k⁻¹ * (toMat n n m).det := by
  rw [toMat_divide hwf hrow k, Matrix.det_updateRow_smul,
      Matrix.updateRow_eq_self]

theorem toMat_row_add {m : Mx} {n : Nat} (hwf : WF m n n) {t s : Nat}
    (ht : t < n) (hs : s < n) (k : ℚ) :
    toMat n n (row_add m t s k).1 =
      (toMat n n m).updateRow ⟨t, ht⟩
        ((toMat n n m ⟨t, ht⟩) + k • (toMat n n m ⟨s, hs⟩)) := by
  funext r c
  rw [Matrix.updateRow_apply]
  unfold toMat
  rw [entry_row_add hwf s r.val k c.2 ht]
  by_cases hr : r = (⟨t, ht⟩ : Fin n)
  · subst hr
    rw [if_pos rfl, if_pos rfl]
    show entry m c.val t + entry m c.val s * k =
      entry m c.val t + k * entry m c.val s
    ring
  · have hr' : r.val ≠ t := fun h => hr (Fin.ext h)
    rw [if_neg hr', if_neg hr]

theorem det_toMat_row_add {m : Mx} {n : Nat} (hwf : WF m n n) {t s : Nat}
    (ht : t < n) (hs : s < n) (k : ℚ) (hts : t ≠ s) :
    (toMat n n (row_add m t s k).1).det = (toMat n n m).det := by
  rw [toMat_row_add hwf ht hs k]
  exact Matrix.det_updateRow_add_smul_self _ (Fin.ne_of_val_ne hts) k

theorem det_apply {m : Mx} {n : Nat} (hwf : WF m n n) (op : RowEchelonOperation)
    (hsafe : DetSafe n op) :
    (toMat n n (apply m op)).det = detFactor op * (toMat n n m).det := by
  cases op with
  | Swap a b =>
    obtain ⟨hab, ha, hb⟩ := hsafe
    exact det_toMat_swap hwf ha hb hab
  | Multipication r k => exact hsafe.elim
  | Division r k =>
    obtain ⟨hk, hr⟩ := hsafe
    exact det_toMat_divide hwf hr k
  | RowAddition a b k =>
    obtain ⟨hab, ha, hb⟩ := hsafe
    rw [show detFactor (RowEchelonOperation.RowAddition a b k) = 1 from rfl, one_mul]
    exact det_toMat_row_add hwf ha hb k hab

theorem det_apply_multiple {n : Nat} :
    ∀ (ops : List RowEchelonOperation) (m : Mx), WF m n n →
      (∀ op ∈ ops, DetSafe n op) →
      (toMat n n (apply_multiple m ops)).det = detMul ops * (toMat n n m).det := by
  intro ops
  induction ops with
  | nil =>
    intro m _ _
    show (toMat n n m).det = detMul [] * (toMat n n m).det
    simp [detMul]
  | cons op ops ih =>
    intro m hwf hsafe
    rw [apply_multiple_cons]
    rw [ih (apply m op) (WF_apply hwf op) (fun x hx => hsafe x (List.mem_cons_of_mem _ hx))]
    rw [det_apply hwf op (hsafe op (List.mem_cons_self _ _))]
    show detMul ops * (detFactor op * _) = detMul (op :: ops) * _
    rw [show detMul (op :: ops) = detFactor op * detMul ops by simp [detMul]]
    ring

theorem detMul_char {R : Nat} :
    ∀ (ops : List RowEchelonOperation), (∀ op ∈ ops, DetSafe R op) →
      detMul ops =
        (-1 : ℚ) ^ ((ops.filter isSwapOp).length) * ((divFactors ops).prod)⁻¹ := by
  intro ops
  induction ops with
  | nil => simp [detMul, divFactors]
  | cons op ops ih =>
    intro hsafe
    have hrest := ih (fun x hx => hsafe x (List.mem_cons_of_mem _ hx))
    have hMul : detMul (op :: ops) = detFactor op * detMul ops := by simp [detMul]
    cases op with
    | Swap a b =>
      have hfil : ((RowEchelonOperation.Swap a b :: ops).filter isSwapOp).length =
          (ops.filter isSwapOp).length + 1 := by
        rw [List.filter_cons, show isSwapOp (RowEchelonOperation.Swap a b) = true from rfl]
        simp
      have hdiv : divFactors (RowEchelonOperation.Swap a b :: ops) = divFactors ops := rfl
      rw [hMul, hrest, hfil, hdiv]
      show (-1 : ℚ) * _ = _
      rw [pow_succ]
      ring
    | Multipication r k => exact absurd (hsafe _ (List.mem_cons_self _ _)) (fun h => h)
    | Division r k =>
      have hfil : ((RowEchelonOperation.Division r k :: ops).filter isSwapOp).length =
          (ops.filter isSwapOp).length := by
        rw [List.filter_cons, show isSwapOp (RowEchelonOperation.Division r k) = false from rfl]
        simp
      have hdiv : divFactors (RowEchelonOperation.Division r k :: ops) =
          k :: divFactors ops := rfl
      rw [hMul, hrest, hfil, hdiv]
      show k⁻¹ * _ = _
      rw [List.prod_cons, mul_inv]
      ring
    | RowAddition a b k =>
      have hfil : ((RowEchelonOperation.RowAddition a b k :: ops).filter isSwapOp).length =
          (ops.filter isSwapOp).length := by
        rw [List.filter_cons,
            show isSwapOp (RowEchelonOperation.RowAddition a b k) = false from rfl]
        simp
      have hdiv : divFactors (RowEchelonOperation.RowAddition a b k :: ops) =
          divFactors ops := rfl
      rw [hMul, hrest, hfil, hdiv]
      show (1 : ℚ) * _ = _
      ring

-- ---------------------------------------------------------------------------
-- Replay: the recorded operation log reproduces the reduction
-- ---------------------------------------------------------------------------

theorem nullify_below_go_replay (pc pr : Nat) (L : List Nat) : ∀ m : Mx,
    apply_multiple m (nullify_below_go pc pr m L).2 = (nullify_below_go pc pr m L).1 := by
  induction L with
  | nil => intro m; rfl
  | cons r rs ih =>
    intro m
    rw [nullify_below_go]
    by_cases h : entry m pc r = 0
    · simp only [h, reduceIte]
      exact ih m
    · simp only [h, reduceIte]
      rw [apply_multiple_cons]
      exact ih _

theorem nullify_below_replay (m : Mx) (pc pr : Nat) :
    apply_multiple m (nullify_rows_below_pivot m pc pr).2 =
      (nullify_rows_below_pivot m pc pr).1 :=
  nullify_below_go_replay pc pr _ m

theorem rref_go_replay (L : List Nat) : ∀ (m : Mx) (d : RowEchelonDetails)
    (m' : Mx) (d' : RowEchelonDetails), rref_go m d L = some (m', d') →
    ∃ new, d'.operations = d.operations ++ new ∧ apply_multiple m new = m' := by
  induction L with
  | nil =>
    intro m d m' d' h
    simp only [rref_go, Option.some.injEq, Prod.mk.injEq] at h
    exact ⟨[], by simp [← h.2], by simp [← h.1, apply_multiple]⟩
  | cons i rest ih =>
    intro m d m' d' h
    simp only [rref_go] at h
    cases hnp : next_pivot m i with
    | none =>
      rw [hnp] at h
      simp only [Option.some.injEq, Prod.mk.injEq] at h
      exact ⟨[], by simp [← h.2], by simp [← h.1, apply_multiple]⟩
    | some p =>
      obtain ⟨pc, pr⟩ := p
      rw [hnp] at h
      simp only at h
      by_cases hsw : pr ≠ i
      · simp only [ne_eq, hsw, not_false_eq_true, if_true] at h
        by_cases hz : entry (swap m pr i).1 pc i = 0
        · rw [if_pos hz] at h; exact absurd h (by simp)
        · rw [if_neg hz] at h
          by_cases hlt : i < rows (divide (swap m pr i).1 i (entry (swap m pr i).1 pc i)).1 - 1
          · rw [if_pos hlt] at h
            obtain ⟨new, hops, happ⟩ := ih _ _ _ _ h
            refine ⟨[RowEchelonOperation.Swap pr i,
                     RowEchelonOperation.Division i (entry (swap m pr i).1 pc i)] ++
                    (nullify_rows_below_pivot
                      (divide (swap m pr i).1 i (entry (swap m pr i).1 pc i)).1 pc i).2 ++ new,
                    ?_, ?_⟩
            · simp only [hops]; simp [swap, divide]
            · rw [apply_multiple_append, apply_multiple_append, apply_multiple_cons,
                  apply_multiple_cons]
              rw [show apply m (RowEchelonOperation.Swap pr i) = (swap m pr i).1 from rfl]
              rw [show ∀ mm, apply mm (RowEchelonOperation.Division i
                    (entry (swap m pr i).1 pc i)) =
                    (divide mm i (entry (swap m pr i).1 pc i)).1 from fun _ => rfl]
              rw [show apply_multiple (divide (swap m pr i).1 i
                    (entry (swap m pr i).1 pc i)).1 [] =
                    (divide (swap m pr i).1 i (entry (swap m pr i).1 pc i)).1 from rfl]
              rw [nullify_below_replay]
              exact happ
          · rw [if_neg hlt] at h
            obtain ⟨new, hops, happ⟩ := ih _ _ _ _ h
            refine ⟨[RowEchelonOperation.Swap pr i,
                     RowEchelonOperation.Division i (entry (swap m pr i).1 pc i)] ++ new,
                    ?_, ?_⟩
            · simp only [hops]; simp [swap, divide]
            · rw [apply_multiple_append, apply_multiple_cons, apply_multiple_cons]
              exact happ
      · simp only [ne_eq, hsw, reduceIte] at h
        by_cases hz : entry m pc i = 0
        · rw [if_pos hz] at h; exact absurd h (by simp)
        · rw [if_neg hz] at h
          by_cases hlt : i < rows (divide m i (entry m pc i)).1 - 1
          · rw [if_pos hlt] at h
            obtain ⟨new, hops, happ⟩ := ih _ _ _ _ h
            refine ⟨[RowEchelonOperation.Division i (entry m pc i)] ++
                    (nullify_rows_below_pivot (divide m i (entry m pc i)).1 pc i).2 ++ new,
                    ?_, ?_⟩
            · simp only [hops]; simp [divide]
            · rw [apply_multiple_append, apply_multiple_append, apply_multiple_cons]
              rw [show apply m (RowEchelonOperation.Division i (entry m pc i)) =
                    (divide m i (entry m pc i)).1 from rfl]
              rw [show apply_multiple (divide m i (entry m pc i)).1 [] =
                    (divide m i (entry m pc i)).1 from rfl]
              rw [nullify_below_replay]
              exact happ
          · rw [if_neg hlt] at h
            obtain ⟨new, hops, happ⟩ := ih _ _ _ _ h
            exact ⟨[RowEchelonOperation.Division i (entry m pc i)] ++ new,
                   by simp only [hops]; simp [divide],
                   by rw [apply_multiple_append, apply_multiple_cons]; exact happ⟩

/-- Replay of a full reduction log onto the original matrix reproduces the
reduced matrix (general helper; claims C1/C4/C7 build on it). -/
theorem reduced_replay (A R : Mx) (d : RowEchelonDetails)
    (h : reduced_row_echelon_form A = some (R, d)) :
    apply_multiple A d.operations = R := by
  unfold reduced_row_echelon_form at h
  by_cases he : A.isEmpty
  · rw [if_pos he] at h
    simp only [Option.some.injEq, Prod.mk.injEq] at h
    rw [← h.2, ← h.1]; rfl
  · rw [if_neg he] at h
    obtain ⟨new, hops, happ⟩ := rref_go_replay _ _ _ _ _ h
    simpa [hops] using happ

-- ---------------------------------------------------------------------------
-- Determinant of the original matrix from the reduction data
-- ---------------------------------------------------------------------------

/-- Characterization of the mathematical determinant of a well-formed square
matrix from its reduction data: zero when the pivot count falls short of the
size, otherwise the pivot product with the swap-parity sign (general
helper). -/
theorem det_formula (A : Mx) (n : Nat) (hwf : WF A n n) :
    ∃ M d, reduced_row_echelon_form A = some (M, d) ∧
      (toMat n n A).det =
        (if d.tracked_pivots.length < n then 0
         else (-1 : ℚ) ^ ((d.operations.filter isSwapOp).length) *
           d.tracked_pivots.prod) ∧
      (0 < n → (d.tracked_pivots.length < n ↔
        ∀ c, c < n → entry M c (n - 1) = 0)) := by
  obtain ⟨M, d, cs, heq, hinv, hple, hdp, hds, hdf, htail⟩ := rre_spec A n n hwf
  have hrep : apply_multiple A d.operations = M := reduced_replay A M d heq
  have hdetM : (toMat n n M).det = detMul d.operations * (toMat n n A).det := by
    rw [← hrep]
    exact det_apply_multiple d.operations A hwf hds
  have hprodne : d.tracked_pivots.prod ≠ 0 :=
    List.prod_ne_zero (fun h0 => hdp 0 h0 rfl)
  have hdm : detMul d.operations =
      (-1 : ℚ) ^ ((d.operations.filter isSwapOp).length) *
        (d.tracked_pivots.prod)⁻¹ := by
    rw [detMul_char d.operations hds, hdf]
  have hdmne : detMul d.operations ≠ 0 := by
    rw [hdm]
    exact mul_ne_zero (pow_ne_zero _ (by norm_num)) (inv_ne_zero hprodne)
  have hinvpow : (((-1 : ℚ) ^ ((d.operations.filter isSwapOp).length)))⁻¹ =
      (-1 : ℚ) ^ ((d.operations.filter isSwapOp).length) := by
    rcases Nat.even_or_odd ((d.operations.filter isSwapOp).length) with he | ho
    · rw [he.neg_one_pow]; norm_num
    · rw [ho.neg_one_pow]; norm_num
  refine ⟨M, d, heq, ?_, ?_⟩
  · by_cases hplt : d.tracked_pivots.length < n
    · rw [if_pos hplt]
      have hn : 0 < n := by omega
      have hdet0 : (toMat n n M).det = 0 := by
        apply Matrix.det_eq_zero_of_row_eq_zero (⟨n - 1, by omega⟩ : Fin n)
        intro j
        exact htail j.val j.2 (n - 1) (by omega) (by omega)
      rw [hdet0] at hdetM
      rcases mul_eq_zero.1 hdetM.symm with h | h
      · exact absurd h hdmne
      · exact h
    · rw [if_neg hplt]
      have hpn : d.tracked_pivots.length = n := by omega
      have hlenc : cs.length = n := by rw [hinv.len]; omega
      have hfull := pairwise_lt_full hlenc hinv.mono hinv.bound
      have htri : (toMat n n M).BlockTriangular id := by
        intro i j hij
        have hjcs : j.val < cs.length := by omega
        have := hinv.below_zero j.val hjcs i.val (by
          have := hfull j.val hjcs
          simpa using hij) i.2
        rw [hfull j.val hjcs] at this
        exact this
      have hdet1 : (toMat n n M).det = 1 := by
        rw [Matrix.det_of_upperTriangular htri]
        apply Finset.prod_eq_one
        intro i _
        show entry M i.val i.val = 1
        have hics : i.val < cs.length := by omega
        have := hinv.pivot_one i.val hics
        rw [hfull i.val hics] at this
        exact this
      rw [hdet1] at hdetM
      have hAdet : (toMat n n A).det = (detMul d.operations)⁻¹ :=
        eq_inv_of_mul_eq_one_left (by rw [mul_comm]; exact hdetM.symm)
      rw [hAdet, hdm, mul_inv, inv_inv, hinvpow]
  · intro hn
    constructor
    · intro hplt c hc
      exact htail c hc (n - 1) (by omega) (by omega)
    · intro hzero
      by_contra hge
      have hpn : d.tracked_pivots.length = n := by omega
      have hlenc : cs.length = n := by rw [hinv.len]; omega
      have hfull := pairwise_lt_full hlenc hinv.mono hinv.bound
      have h1cs : n - 1 < cs.length := by omega
      have := hinv.pivot_one (n - 1) h1cs
      rw [hfull (n - 1) h1cs] at this
      rw [hzero (n - 1) (by omega)] at this
      exact absurd this (by norm_num)

theorem toMat_det_two (A : Mx) :
    (toMat 2 2 A).det =
      entry A 0 0 * entry A 1 1 - entry A 1 0 * entry A 0 1 := by
  rw [Matrix.det_fin_two]
  rfl

theorem toMat_det_three (A : Mx) :
    (toMat 3 3 A).det =
      (entry A 0 0 * entry A 1 1 * entry A 2 2
       + entry A 1 0 * entry A 2 1 * entry A 0 2
       + entry A 2 0 * entry A 0 1 * entry A 1 2)
      - (entry A 0 2 * entry A 1 1 * entry A 2 0
         + entry A 1 2 * entry A 2 1 * entry A 0 0
         + entry A 2 2 * entry A 0 1 * entry A 1 0) := by
  rw [Matrix.det_fin_three]
  show entry A 0 0 * entry A 1 1 * entry A 2 2
      - entry A 0 0 * entry A 2 1 * entry A 1 2
      - entry A 1 0 * entry A 0 1 * entry A 2 2
      + entry A 1 0 * entry A 2 1 * entry A 0 2
      + entry A 2 0 * entry A 0 1 * entry A 1 2
      - entry A 2 0 * entry A 1 1 * entry A 0 2 = _
  ring

theorem foldl_mul_prod (ps : List ℚ) : ∀ p : ℚ,
    ps.foldl (fun acc piv => acc * piv) p = p * ps.prod := by
  induction ps with
  | nil => intro p; simp
  | cons q qs ih =>
    intro p
    show qs.foldl (fun acc piv => acc * piv) (p * q) = _
    rw [ih (p * q), List.prod_cons]
    ring

/-- The bottom-row-all-zero test in determinant_for_dimension_4_and_more is
equivalent to the pivot count falling short of the size. -/
theorem last_row_test {A M : Mx} {n : Nat} {d : RowEchelonDetails} {cs : List Nat}
    (hinv : Inv n n d.tracked_pivots.length M cs)
    (hple : d.tracked_pivots.length ≤ n)
    (htail : ∀ c, c < n → ∀ r, d.tracked_pivots.length ≤ r → r < n →
      entry M c r = 0)
    (hn : 0 < n) :
    (match (rowsOf M).getLast? with
     | some r => r.all (fun k => decide (k = 0))
     | none => false) = true ↔ d.tracked_pivots.length < n := by
  have hrows : rows M = n := rows_eq_of_WF hinv.wf hn
  have hlast : (rowsOf M).getLast? = some (M.map (fun col => col.getD (n - 1) 0)) := by
    unfold rowsOf
    rw [hrows]
    rw [List.getLast?_eq_getElem?]
    have hlen : ((List.range n).map
        (fun r => M.map (fun col => col.getD r 0))).length = n := by simp
    rw [hlen]
    rw [List.getElem?_map]
    rw [List.getElem?_range (by omega)]
    rfl
  rw [hlast]
  show (M.map (fun col => col.getD (n - 1) 0)).all (fun k => decide (k = 0)) = true ↔ _
  constructor
  · intro hall
    by_contra hge
    have hpn : d.tracked_pivots.length = n := by omega
    have hlenc : cs.length = n := by rw [hinv.len]; omega
    have hfull := pairwise_lt_full hlenc hinv.mono hinv.bound
    have h1cs : n - 1 < cs.length := by omega
    have hone := hinv.pivot_one (n - 1) h1cs
    rw [hfull (n - 1) h1cs] at hone
    rw [List.all_eq_true] at hall
    have hmem : (M.get ⟨n - 1, by rw [hinv.wf.1]; omega⟩).getD (n - 1) 0 ∈
        M.map (fun col => col.getD (n - 1) 0) := by
      rw [List.mem_map]
      exact ⟨M.get ⟨n - 1, by rw [hinv.wf.1]; omega⟩, List.get_mem M _ _, rfl⟩
    have := hall _ hmem
    rw [entry_get_col M (n - 1) (by rw [hinv.wf.1]; omega) (n - 1), hone] at this
    simp at this
  · intro hplt
    exact row_all_zero hinv.wf (n - 1)
      (fun c hc => htail c hc (n - 1) (by omega) (by omega))

/-- C7: whenever `row_echelon_with_details` returns a reduced matrix together
with a details record, replaying the recorded operations, in order, onto the
original matrix via `apply_multiple` produces exactly the reduced matrix. -/
theorem C7_replay_reproduces_reduction (A R : Mx) (d : RowEchelonDetails)
    (h : row_echelon_with_details A = some (R, d)) :
    apply_multiple A d.operations = R :=
  reduced_replay A R d h

/-- Witness for C7 at the concrete matrix with columns [0,1] and [1,0]
(rows (0 1) and (1 0)): the reduction performs one swap and two
normalizing divisions, and replaying that log yields the identity. -/
theorem C7_replay_reproduces_reduction_witness :
    apply_multiple [[(0 : ℚ), 1], [1, 0]]
        (RowEchelonDetails.mk [1, 1]
          [.Swap 1 0, .Division 0 1, .Division 1 1]).operations =
      [[(1 : ℚ), 0], [0, 1]] :=
  C7_replay_reproduces_reduction [[(0 : ℚ), 1], [1, 0]] [[(1 : ℚ), 0], [0, 1]]
    (RowEchelonDetails.mk [1, 1] [.Swap 1 0, .Division 0 1, .Division 1 1])
    (by norm_num [row_echelon_with_details, reduced_row_echelon_form, rref_go,
      next_pivot, next_pivot_cols, next_pivot_in_col, nullify_rows_below_pivot,
      nullify_below_go, swap, divide, row_add, entry, rows, cols,
      List.range_succ, List.range'])

/-- C10 (amended): `inverse` takes its receiver by exclusive (mutable)
reference but never writes through it — the reduction works on a clone, and
back-substitution clones again internally — so the input matrix is unchanged
when `inverse` returns.  Stated on the state-passing embedding `inverseS`,
whose first component is the final state of the receiver. -/
theorem C10_inverse_leaves_input_unchanged (A : Mx) : (inverseS A).1 = A := by
  unfold inverseS
  split
  · rfl
  · split
    · rfl
    · split
      · rfl
      · split
        · rfl
        · rfl

/-- Counterexample to C10 as stated ("inverse mutates the input matrix in
place"): at the square input with columns [1,0] and [0,1] the receiver's
final state equals its initial state — no mutation happens. -/
theorem C10_counterexample :
    (inverseS [[(1 : ℚ), 0], [0, 1]]).1 = [[(1 : ℚ), 0], [0, 1]] := by
  unfold inverseS
  split
  · rfl
  · split
    · rfl
    · split
      · rfl
      · split
        · rfl
        · rfl

/-- C6 (code bug): partial pivoting is documented (in the spec and in the
comment inside `next_pivot` itself) as selecting the candidate of largest
absolute value, but the code compares raw signed values (`current > pivot`).
On the single-column matrix with entries (1, -5), scanning from row 0,
`next_pivot` selects row 0 (entry 1) although row 1 holds the
larger-magnitude candidate -5. -/
theorem C6_signed_comparison_not_largest_magnitude :
    next_pivot [[(1 : ℚ), -5]] 0 = some (0, 0) ∧
      |entry [[(1 : ℚ), -5]] 0 1| > |entry [[(1 : ℚ), -5]] 0 0| := by
  decide

-- ---------------------------------------------------------------------------
-- C1: determinant as the signed pivot product
-- ---------------------------------------------------------------------------

theorem sign_prod_eq (s : Nat) (q : ℚ) :
    (-1 : ℚ) ^ s * q = if s % 2 = 1 then -q else q := by
  rcases Nat.even_or_odd s with he | ho
  · rw [he.neg_one_pow, if_neg (by simp [Nat.even_iff.mp he]), one_mul]
  · rw [ho.neg_one_pow, if_pos (Nat.odd_iff.mp ho), neg_one_mul]

/-- C1 (amended): for a well-formed square n×n matrix with 2 ≤ n ≤ 4 (for
n ≥ 5 the `cols <= 4` assertion aborts `determinant`), `determinant` returns
zero when the forward elimination pass finds fewer than n pivots —
equivalently, when the bottom row of the reduced matrix is entirely zero —
and otherwise returns the product of the tracked pivot values recorded by
`row_echelon_with_details`, negated exactly when the number of Swap
operations in the recorded log is odd. -/
theorem C1_determinant_signed_pivot_product (A : Mx) (n : Nat) (hwf : WF A n n)
    (hn2 : 2 ≤ n) (hn4 : n ≤ 4) :
    ∃ M d, row_echelon_with_details A = some (M, d) ∧
      determinant A = some
        (if d.tracked_pivots.length < n then 0
         else if (d.operations.filter isSwapOp).length % 2 = 1
           then -(d.tracked_pivots.prod) else d.tracked_pivots.prod) ∧
      (d.tracked_pivots.length < n ↔ ∀ c, c < n → entry M c (n - 1) = 0) := by
  obtain ⟨M, d, cs, heq, hinv, hple, hdp, hds, hdf, htail⟩ := rre_spec A n n hwf
  obtain ⟨M', d', heq', hdet, hiff⟩ := det_formula A n hwf
  rw [heq] at heq'
  simp only [Option.some.injEq, Prod.mk.injEq] at heq'
  obtain ⟨hM, hd⟩ := heq'
  subst hM
  subst hd
  refine ⟨M, d, heq, ?_, hiff (by omega)⟩
  have hfin : (if d.tracked_pivots.length < n then (0 : ℚ)
      else (-1 : ℚ) ^ ((d.operations.filter isSwapOp).length) *
        d.tracked_pivots.prod)
      = (if d.tracked_pivots.length < n then 0
         else if (d.operations.filter isSwapOp).length % 2 = 1
           then -(d.tracked_pivots.prod) else d.tracked_pivots.prod) := by
    by_cases hp : d.tracked_pivots.length < n
    · rw [if_pos hp, if_pos hp]
    · rw [if_neg hp, if_neg hp, sign_prod_eq]
  have hsq := is_square_of_WF hwf
  have hcols : cols A = n := hwf.1
  unfold determinant
  rw [if_neg (not_not_intro hsq), if_neg (not_not_intro (by rw [hcols]; omega))]
  interval_cases n
  · rw [hcols]
    show some (entry A 0 0 * entry A 1 1 - entry A 1 0 * entry A 0 1)
        = some (if d.tracked_pivots.length < 2 then 0
           else if (d.operations.filter isSwapOp).length % 2 = 1
             then -(d.tracked_pivots.prod) else d.tracked_pivots.prod)
    rw [← toMat_det_two, hdet, hfin]
  · rw [hcols]
    show some ((entry A 0 0 * entry A 1 1 * entry A 2 2
           + entry A 1 0 * entry A 2 1 * entry A 0 2
           + entry A 2 0 * entry A 0 1 * entry A 1 2)
          - (entry A 0 2 * entry A 1 1 * entry A 2 0
             + entry A 1 2 * entry A 2 1 * entry A 0 0
             + entry A 2 2 * entry A 0 1 * entry A 1 0))
        = some (if d.tracked_pivots.length < 3 then 0
           else if (d.operations.filter isSwapOp).length % 2 = 1
             then -(d.tracked_pivots.prod) else d.tracked_pivots.prod)
    rw [← toMat_det_three, hdet, hfin]
  · rw [hcols]
    show determinant_for_dimension_4_and_more A
        = some (if d.tracked_pivots.length < 4 then 0
           else if (d.operations.filter isSwapOp).length % 2 = 1
             then -(d.tracked_pivots.prod) else d.tracked_pivots.prod)
    unfold determinant_for_dimension_4_and_more
    rw [if_neg (not_not_intro hsq), if_neg (not_not_intro (by rw [hcols])), heq]
    simp only
    have hlrt := last_row_test (A := A) hinv (by omega) htail (by omega)
    by_cases hp : d.tracked_pivots.length < 4
    · rw [if_pos (hlrt.mpr hp), if_pos hp]
    · rw [if_neg (fun h => hp (hlrt.mp h)), if_neg hp]
      cases hdt : d.tracked_pivots with
      | nil =>
        rw [hdt] at hp
        simp at hp
      | cons q qs =>
        show some (if (d.operations.filter isSwapOp).length % 2 ≠ 0
            then -(qs.foldl (fun acc piv => acc * piv) q)
            else qs.foldl (fun acc piv => acc * piv) q)
          = some (if (d.operations.filter isSwapOp).length % 2 = 1
            then -((q :: qs).prod) else (q :: qs).prod)
        rw [foldl_mul_prod, ← List.prod_cons]
        by_cases hs : (d.operations.filter isSwapOp).length % 2 = 1
        · rw [if_pos (by omega : (d.operations.filter isSwapOp).length % 2 ≠ 0),
            if_pos hs]
        · rw [if_neg (by omega : ¬ (d.operations.filter isSwapOp).length % 2 ≠ 0),
            if_neg hs]

/-- Witness for C1 at the 2×2 matrix with columns [1,2] and [3,4]. -/
theorem C1_determinant_signed_pivot_product_witness :
    WF [[(1 : ℚ), 2], [3, 4]] 2 2 ∧
    (∃ M d, row_echelon_with_details [[(1 : ℚ), 2], [3, 4]] = some (M, d) ∧
      determinant [[(1 : ℚ), 2], [3, 4]] = some
        (if d.tracked_pivots.length < 2 then 0
         else if (d.operations.filter isSwapOp).length % 2 = 1
           then -(d.tracked_pivots.prod) else d.tracked_pivots.prod) ∧
      (d.tracked_pivots.length < 2 ↔
        ∀ c, c < 2 → entry M c (2 - 1) = 0)) :=
  ⟨by decide, C1_determinant_signed_pivot_product [[(1 : ℚ), 2], [3, 4]] 2
    (by decide) (by norm_num) (by norm_num)⟩

/-- Counterexample to C1 as stated (every n ≥ 2): the 5×5 identity matrix is
square with a full set of 5 tracked pivots — the claim predicts determinant
1 — yet `determinant` does not complete on it: the `cols <= 4` assertion
aborts the call. -/
theorem C1_counterexample :
    WF (identity 5) 5 5 ∧
    row_echelon_with_details (identity 5) = some (identity 5,
      ⟨[1, 1, 1, 1, 1], [.Division 0 1, .Division 1 1, .Division 2 1,
        .Division 3 1, .Division 4 1]⟩) ∧
    determinant (identity 5) = none := by
  refine ⟨by decide, ?_, rfl⟩
  norm_num [row_echelon_with_details, reduced_row_echelon_form, rref_go,
    next_pivot, next_pivot_cols, next_pivot_in_col, nullify_rows_below_pivot,
    nullify_below_go, swap, divide, row_add, entry, rows, cols, identity,
    List.range_succ, List.range']

-- ---------------------------------------------------------------------------
-- The identity matrix and elementary operations as left multiplications
-- ---------------------------------------------------------------------------

theorem entry_identity {n : Nat} (c r : Nat) (hc : c < n) :
    entry (identity n) c r = if r = c then 1 else 0 := by
  unfold entry identity
  simp only [List.getD_eq_getElem?_getD, List.getElem?_map,
    List.getElem?_range hc, Option.map_some', Option.getD_some]
  by_cases hr : r < n
  · simp only [List.getElem?_range hr, Option.map_some', Option.getD_some]
  · rw [List.getElem?_eq_none (by rw [List.length_range]; omega)]
    simp only [Option.map_none', Option.getD_none]
    rw [if_neg (by omega)]

theorem WF_identity (n : Nat) : WF (identity n) n n := by
  refine ⟨by simp [identity], ?_⟩
  intro col hcol
  obtain ⟨c, _, rfl⟩ := List.mem_map.1 hcol
  simp

theorem toMat_identity (n : Nat) : toMat n n (identity n) = 1 := by
  ext i j
  show entry (identity n) j.val i.val = _
  rw [entry_identity j.val i.val j.2, Matrix.one_apply]
  by_cases h : i = j
  · rw [if_pos h, if_pos (by rw [h])]
  · rw [if_neg h, if_neg (fun hv => h (Fin.ext hv))]

theorem sum_col_identity {n : Nat} (r : Nat) (hr : r < n) (g : Fin n → ℚ) :
    (Finset.univ.sum fun k : Fin n => entry (identity n) k.val r * g k)
      = g ⟨r, hr⟩ := by
  rw [Finset.sum_eq_single (⟨r, hr⟩ : Fin n)]
  · rw [entry_identity r r hr, if_pos rfl, one_mul]
  · intro b _ hb
    rw [entry_identity b.val r b.2, if_neg (fun hrb => hb (Fin.ext hrb.symm)),
      zero_mul]
  · intro h
    exact absurd (Finset.mem_univ _) h

theorem WF_apply_multiple {R C : Nat} :
    ∀ (ops : List RowEchelonOperation) (m : Mx),
    WF m R C → WF (apply_multiple m ops) R C := by
  intro ops
  induction ops with
  | nil => intro m h; exact h
  | cons op rest ih =>
    intro m h
    rw [apply_multiple_cons]
    exact ih _ (WF_apply h op)

/-- Applying one recorded operation acts as left multiplication by the matrix
obtained by applying the same operation to the identity. -/
theorem toMat_apply_eq_mul {n : Nat} {m : Mx} (hwf : WF m n n)
    (op : RowEchelonOperation) (hsafe : DetSafe n op) :
    toMat n n (apply m op) =
      toMat n n (apply (identity n) op) * toMat n n m := by
  cases op with
  | Multipication r k => exact hsafe.elim
  | Swap a b =>
    obtain ⟨hab, ha, hb⟩ := hsafe
    ext i j
    show entry (swap m a b).1 j.val i.val = _
    rw [entry_swap hwf i.val j.2 ha hb, Matrix.mul_apply]
    by_cases hib : i.val = b
    · rw [if_pos hib]
      have hsum : (Finset.univ.sum fun k : Fin n =>
          toMat n n (apply (identity n) (RowEchelonOperation.Swap a b)) i k *
            toMat n n m k j)
          = Finset.univ.sum fun k : Fin n =>
              entry (identity n) k.val a * entry m j.val k.val := by
        refine Finset.sum_congr rfl (fun k _ => ?_)
        show entry (swap (identity n) a b).1 k.val i.val * entry m j.val k.val = _
        rw [entry_swap (WF_identity n) i.val k.2 ha hb, if_pos hib]
      rw [hsum, sum_col_identity a ha]
    · rw [if_neg hib]
      by_cases hia : i.val = a
      · rw [if_pos hia]
        have hsum : (Finset.univ.sum fun k : Fin n =>
            toMat n n (apply (identity n) (RowEchelonOperation.Swap a b)) i k *
              toMat n n m k j)
            = Finset.univ.sum fun k : Fin n =>
                entry (identity n) k.val b * entry m j.val k.val := by
          refine Finset.sum_congr rfl (fun k _ => ?_)
          show entry (swap (identity n) a b).1 k.val i.val * entry m j.val k.val = _
          rw [entry_swap (WF_identity n) i.val k.2 ha hb, if_neg hib, if_pos hia]
        rw [hsum, sum_col_identity b hb]
      · rw [if_neg hia]
        have hsum : (Finset.univ.sum fun k : Fin n =>
            toMat n n (apply (identity n) (RowEchelonOperation.Swap a b)) i k *
              toMat n n m k j)
            = Finset.univ.sum fun k : Fin n =>
                entry (identity n) k.val i.val * entry m j.val k.val := by
          refine Finset.sum_congr rfl (fun k _ => ?_)
          show entry (swap (identity n) a b).1 k.val i.val * entry m j.val k.val = _
          rw [entry_swap (WF_identity n) i.val k.2 ha hb, if_neg hib, if_neg hia]
        rw [hsum, sum_col_identity i.val i.2]
  | Division row k =>
    obtain ⟨hk, hrow⟩ := hsafe
    ext i j
    show entry (divide m row k).1 j.val i.val = _
    rw [entry_divide hwf i.val k j.2 hrow, Matrix.mul_apply]
    by_cases hir : i.val = row
    · rw [if_pos hir]
      have hsum : (Finset.univ.sum fun q : Fin n =>
          toMat n n (apply (identity n) (RowEchelonOperation.Division row k)) i q *
            toMat n n m q j)
          = Finset.univ.sum fun q : Fin n =>
              entry (identity n) q.val i.val * entry m j.val q.val / k := by
        refine Finset.sum_congr rfl (fun q _ => ?_)
        show entry (divide (identity n) row k).1 q.val i.val * entry m j.val q.val = _
        rw [entry_divide (WF_identity n) i.val k q.2 hrow, if_pos hir,
          div_mul_eq_mul_div]
      rw [hsum, ← Finset.sum_div, sum_col_identity i.val i.2]
    · rw [if_neg hir]
      have hsum : (Finset.univ.sum fun q : Fin n =>
          toMat n n (apply (identity n) (RowEchelonOperation.Division row k)) i q *
            toMat n n m q j)
          = Finset.univ.sum fun q : Fin n =>
              entry (identity n) q.val i.val * entry m j.val q.val := by
        refine Finset.sum_congr rfl (fun q _ => ?_)
        show entry (divide (identity n) row k).1 q.val i.val * entry m j.val q.val = _
        rw [entry_divide (WF_identity n) i.val k q.2 hrow, if_neg hir]
      rw [hsum, sum_col_identity i.val i.2]
  | RowAddition t s k =>
    obtain ⟨hts, ht, hs⟩ := hsafe
    ext i j
    show entry (row_add m t s k).1 j.val i.val = _
    rw [entry_row_add hwf s i.val k j.2 ht, Matrix.mul_apply]
    by_cases hit : i.val = t
    · rw [if_pos hit]
      have hsum : (Finset.univ.sum fun q : Fin n =>
          toMat n n (apply (identity n) (RowEchelonOperation.RowAddition t s k)) i q *
            toMat n n m q j)
          = Finset.univ.sum fun q : Fin n =>
              (entry (identity n) q.val t * entry m j.val q.val +
                entry (identity n) q.val s * entry m j.val q.val * k) := by
        refine Finset.sum_congr rfl (fun q _ => ?_)
        show entry (row_add (identity n) t s k).1 q.val i.val * entry m j.val q.val = _
        rw [entry_row_add (WF_identity n) s i.val k q.2 ht, if_pos hit]
        ring
      rw [hsum, Finset.sum_add_distrib, ← Finset.sum_mul,
        sum_col_identity t ht, sum_col_identity s hs]
    · rw [if_neg hit]
      have hsum : (Finset.univ.sum fun q : Fin n =>
          toMat n n (apply (identity n) (RowEchelonOperation.RowAddition t s k)) i q *
            toMat n n m q j)
          = Finset.univ.sum fun q : Fin n =>
              entry (identity n) q.val i.val * entry m j.val q.val := by
        refine Finset.sum_congr rfl (fun q _ => ?_)
        show entry (row_add (identity n) t s k).1 q.val i.val * entry m j.val q.val = _
        rw [entry_row_add (WF_identity n) s i.val k q.2 ht, if_neg hit]
      rw [hsum, sum_col_identity i.val i.2]

/-- The loop bodies of nullify_rows_above_pivot and nullify_rows_below_pivot
are identical; only the row lists passed to them differ. -/
theorem nullify_above_eq_below (pc pr : Nat) :
    ∀ (L : List Nat) (m : Mx),
    nullify_above_go pc pr m L = nullify_below_go pc pr m L := by
  intro L
  induction L with
  | nil => intro m; rfl
  | cons r rs ih =>
    intro m
    rw [nullify_above_go, nullify_below_go]
    by_cases h : entry m pc r = 0
    · simp only [h, reduceIte]
      exact ih m
    · simp only [h, reduceIte]
      rw [ih]

/-- Variant of nullify_below_go_spec for arbitrary target rows distinct from
the pivot row (used for the rows above the pivot in back substitution). -/
theorem nullify_go_spec_ne (pc i R C : Nat) (hpc : pc < C) :
    ∀ (L : List Nat) (m : Mx), WF m R C → (∀ r ∈ L, r ≠ i ∧ r < R) → L.Nodup →
      WF (nullify_below_go pc i m L).1 R C ∧
      (∀ c, c < C → ∀ r,
        entry (nullify_below_go pc i m L).1 c r =
          if r ∈ L then entry m c r + entry m c i * (-(entry m pc r))
          else entry m c r) := by
  intro L
  induction L with
  | nil =>
    intro m hwf _ _
    exact ⟨hwf, fun c _ r => by simp [nullify_below_go]⟩
  | cons r0 rs ih =>
    intro m hwf hL hnd
    have hr0 : r0 ≠ i ∧ r0 < R := hL r0 (List.mem_cons_self _ _)
    have hr0rs : r0 ∉ rs := (List.nodup_cons.1 hnd).1
    have hndrs : rs.Nodup := (List.nodup_cons.1 hnd).2
    have hLrs : ∀ r ∈ rs, r ≠ i ∧ r < R := fun r hr => hL r (List.mem_cons_of_mem _ hr)
    rw [nullify_below_go]
    by_cases hz : entry m pc r0 = 0
    · simp only [hz, reduceIte]
      obtain ⟨hwf', hent⟩ := ih m hwf hLrs hndrs
      refine ⟨hwf', ?_⟩
      intro c hc r
      rw [hent c hc r]
      by_cases hmem : r ∈ r0 :: rs
      · rcases List.mem_cons.1 hmem with h1 | h2
        · subst h1
          rw [if_pos hmem, if_neg (fun hh => hr0rs hh), hz]
          ring
        · rw [if_pos hmem, if_pos h2]
      · rw [if_neg hmem, if_neg (fun hh => hmem (List.mem_cons_of_mem _ hh))]
    · simp only [hz, reduceIte]
      have hwf1 : WF (row_add m r0 i (-(entry m pc r0))).1 R C :=
        WF_row_add hwf _ _ _
      obtain ⟨hwf', hent⟩ := ih _ hwf1 hLrs hndrs
      refine ⟨hwf', ?_⟩
      intro c hc r
      rw [hent c hc r]
      have herow : ∀ c' r', c' < C →
          entry (row_add m r0 i (-(entry m pc r0))).1 c' r' =
            if r' = r0 then entry m c' r0 + entry m c' i * (-(entry m pc r0))
            else entry m c' r' :=
        fun c' r' hc' => entry_row_add hwf i r' (-(entry m pc r0)) hc' hr0.2
      by_cases hmem : r ∈ r0 :: rs
      · rcases List.mem_cons.1 hmem with h1 | h2
        · subst h1
          rw [if_neg (fun hh => hr0rs hh), if_pos hmem]
          rw [herow c r hc, if_pos rfl]
        · have hrne : r ≠ r0 := fun hh => hr0rs (hh ▸ h2)
          rw [if_pos h2, if_pos hmem]
          rw [herow c r hc, if_neg hrne,
              herow c i hc, if_neg (fun hh => hr0.1 hh.symm),
              herow pc r hpc, if_neg hrne]
      · have hrne : r ≠ r0 := fun hh => hmem (hh ▸ List.mem_cons_self _ _)
        rw [if_neg (fun hh => hmem (List.mem_cons_of_mem _ hh)), if_neg hmem]
        rw [herow c r hc, if_neg hrne]

theorem nullify_go_ops_ne (pc i R : Nat) :
    ∀ (L : List Nat) (m : Mx), (∀ r ∈ L, r ≠ i ∧ r < R) →
      ∀ op ∈ (nullify_below_go pc i m L).2,
        ∃ r k, op = .RowAddition r i k ∧ r ≠ i ∧ r < R := by
  intro L
  induction L with
  | nil => intro m _ op hop; simp [nullify_below_go] at hop
  | cons r0 rs ih =>
    intro m hL op hop
    have hr0 : r0 ≠ i ∧ r0 < R := hL r0 (List.mem_cons_self _ _)
    have hLrs : ∀ r ∈ rs, r ≠ i ∧ r < R := fun r hr => hL r (List.mem_cons_of_mem _ hr)
    rw [nullify_below_go] at hop
    by_cases hz : entry m pc r0 = 0
    · simp only [hz, reduceIte] at hop
      exact ih m hLrs op hop
    · simp only [hz, reduceIte] at hop
      rcases List.mem_cons.1 hop with h1 | h2
      · exact ⟨r0, -(entry m pc r0), h1, hr0.1, hr0.2⟩
      · exact ih _ hLrs op h2

theorem back_sub_go_cons (m : Mx) (i : Nat) (is : List Nat) :
    back_sub_go m (i :: is) =
      ((back_sub_go (nullify_rows_above_pivot m i i).1 is).1,
       (nullify_rows_above_pivot m i i).2 ++
         (back_sub_go (nullify_rows_above_pivot m i i).1 is).2) := rfl

/-- Invariant of the back-substitution loop on a unit upper triangular
matrix: diagonal ones and zeros below the diagonal are preserved, the
processed columns become identity columns, every recorded operation is a
safe row addition, and the recorded operations replay to the result. -/
theorem back_sub_go_spec {n : Nat} :
    ∀ (f i : Nat) (X : Mx), i + f = n → 1 ≤ i → WF X n n →
    (∀ j, j < n → entry X j j = 1) →
    (∀ j r, j < r → r < n → entry X j r = 0) →
    (∀ c, c < i → ∀ r, r < n → r ≠ c → entry X c r = 0) →
    WF (back_sub_go X (List.range' i f)).1 n n ∧
    (∀ c, c < n → ∀ r, r < n →
      entry (back_sub_go X (List.range' i f)).1 c r = if r = c then 1 else 0) ∧
    (∀ op ∈ (back_sub_go X (List.range' i f)).2, DetSafe n op) ∧
    apply_multiple X (back_sub_go X (List.range' i f)).2 =
      (back_sub_go X (List.range' i f)).1 := by
  intro f
  induction f with
  | zero =>
    intro i X hin h1i hwf hdiag hbelow hdone
    refine ⟨hwf, ?_, ?_, rfl⟩
    · intro c hc r hr
      by_cases hrc : r = c
      · rw [if_pos hrc, hrc]
        exact hdiag c hc
      · rw [if_neg hrc]
        exact hdone c (by omega) r hr hrc
    · intro op hop
      exact absurd hop (List.not_mem_nil op)
  | succ f ih =>
    intro i X hin h1i hwf hdiag hbelow hdone
    have hi_n : i < n := by omega
    rw [List.range'_succ, back_sub_go_cons]
    have heqb : nullify_rows_above_pivot X i i =
        nullify_below_go i i X (List.range i) := by
      unfold nullify_rows_above_pivot
      exact nullify_above_eq_below i i (List.range i) X
    have hLprop : ∀ r ∈ List.range i, r ≠ i ∧ r < n := by
      intro r hr
      have := List.mem_range.1 hr
      omega
    obtain ⟨hwfX', hent⟩ :=
      nullify_go_spec_ne i i n n hi_n (List.range i) X hwf hLprop (List.nodup_range i)
    rw [← heqb] at hwfX' hent
    have hdiag' : ∀ j, j < n →
        entry (nullify_rows_above_pivot X i i).1 j j = 1 := by
      intro j hj
      rw [hent j hj j]
      by_cases hji : j < i
      · rw [if_pos (List.mem_range.2 hji), hdiag j hj, hbelow j i hji hi_n]
        ring
      · rw [if_neg (fun hm => hji (List.mem_range.1 hm))]
        exact hdiag j hj
    have hbelow' : ∀ j r, j < r → r < n →
        entry (nullify_rows_above_pivot X i i).1 j r = 0 := by
      intro j r hjr hr
      have hj : j < n := by omega
      rw [hent j hj r]
      by_cases hri : r < i
      · rw [if_pos (List.mem_range.2 hri), hbelow j r hjr hr,
          hbelow j i (by omega) hi_n]
        ring
      · rw [if_neg (fun hm => hri (List.mem_range.1 hm))]
        exact hbelow j r hjr hr
    have hdone' : ∀ c, c < i + 1 → ∀ r, r < n → r ≠ c →
        entry (nullify_rows_above_pivot X i i).1 c r = 0 := by
      intro c hc r hr hrc
      have hcn : c < n := by omega
      rw [hent c hcn r]
      by_cases hci : c < i
      · by_cases hri : r < i
        · rw [if_pos (List.mem_range.2 hri), hdone c hci r hr hrc,
            hbelow c i hci hi_n]
          ring
        · rw [if_neg (fun hm => hri (List.mem_range.1 hm))]
          exact hdone c hci r hr hrc
      · have hcieq : c = i := by omega
        subst hcieq
        by_cases hri : r < c
        · rw [if_pos (List.mem_range.2 hri), hdiag c hcn]
          ring
        · rw [if_neg (fun hm => hri (List.mem_range.1 hm))]
          exact hbelow c r (by omega) hr
    have hsafe' : ∀ op ∈ (nullify_rows_above_pivot X i i).2, DetSafe n op := by
      intro op hop
      rw [heqb] at hop
      obtain ⟨r, k, rfl, hrne, hrR⟩ :=
        nullify_go_ops_ne i i n (List.range i) X hLprop op hop
      exact ⟨hrne, hrR, hi_n⟩
    have hreplay' : apply_multiple X (nullify_rows_above_pivot X i i).2 =
        (nullify_rows_above_pivot X i i).1 := by
      rw [heqb]
      exact nullify_below_go_replay i i (List.range i) X
    obtain ⟨ih1, ih2, ih3, ih4⟩ := ih (i + 1) (nullify_rows_above_pivot X i i).1
      (by omega) (by omega) hwfX' hdiag' hbelow' hdone'
    refine ⟨ih1, ih2, ?_, ?_⟩
    · intro op hop
      rcases List.mem_append.1 hop with h | h
      · exact hsafe' op h
      · exact ih3 op h
    · rw [apply_multiple_append, hreplay', ih4]

theorem lc_go_getD (r : Nat) : ∀ (rest : List (List ℚ × ℚ)) (acc : List ℚ),
    (∀ p ∈ rest, p.1.length = acc.length) → r < acc.length →
    (lc_go acc rest).getD r 0 =
      acc.getD r 0 + (rest.map (fun p => p.1.getD r 0 * p.2)).sum := by
  intro rest
  induction rest with
  | nil => intro acc _ _; simp [lc_go]
  | cons vc rest ih =>
    intro acc hlen hr
    rw [lc_go]
    have hvclen : vc.1.length = acc.length := hlen vc (List.mem_cons_self _ _)
    have hacc : (acc.zipWith (· + ·) (vc.1.map (· * vc.2))).length = acc.length := by
      rw [List.length_zipWith, List.length_map, hvclen, min_self]
    rw [ih _ (fun p hp => by
        rw [hacc]; exact hlen p (List.mem_cons_of_mem _ hp))
      (by rw [hacc]; exact hr)]
    have hz : (acc.zipWith (· + ·) (vc.1.map (· * vc.2))).getD r 0 =
        acc.getD r 0 + vc.1.getD r 0 * vc.2 := by
      rw [List.getD_eq_getElem _ _ (by rw [hacc]; exact hr)]
      rw [List.getElem_zipWith, List.getElem_map]
      rw [List.getD_eq_getElem _ _ hr,
        List.getD_eq_getElem _ _ (by rw [hvclen]; exact hr)]
    rw [hz, List.map_cons, List.sum_cons]
    ring

theorem lc_go_length : ∀ (rest : List (List ℚ × ℚ)) (acc : List ℚ),
    (∀ p ∈ rest, p.1.length = acc.length) →
    (lc_go acc rest).length = acc.length := by
  intro rest
  induction rest with
  | nil => intro acc _; rfl
  | cons vc rest ih =>
    intro acc hlen
    rw [lc_go]
    have hvclen : vc.1.length = acc.length := hlen vc (List.mem_cons_self _ _)
    have hacc : (acc.zipWith (· + ·) (vc.1.map (· * vc.2))).length = acc.length := by
      rw [List.length_zipWith, List.length_map, hvclen, min_self]
    rw [ih _ (fun p hp => by
        rw [hacc]; exact hlen p (List.mem_cons_of_mem _ hp)), hacc]

theorem linear_combination_getD (b : Mx) (coefs : List ℚ) (r R : Nat)
    (hcols : ∀ col ∈ b, col.length = R) (hr : r < R) :
    (linear_combination b coefs).getD r 0 =
      ((b.zip coefs).map (fun p => p.1.getD r 0 * p.2)).sum := by
  cases b with
  | nil => cases coefs <;> simp [linear_combination]
  | cons v vs =>
    cases coefs with
    | nil => simp [linear_combination]
    | cons c cs =>
      show (lc_go (v.map (· * c)) (vs.zip cs)).getD r 0 = _
      have hv : v.length = R := hcols v (List.mem_cons_self _ _)
      rw [lc_go_getD r (vs.zip cs) _ (fun p hp => by
          rw [List.length_map, hv,
            hcols p.1 (List.mem_cons_of_mem _ (List.of_mem_zip hp).1)])
        (by rw [List.length_map, hv]; exact hr)]
      rw [List.zip_cons_cons, List.map_cons, List.sum_cons]
      congr 1
      rw [List.getD_eq_getElem _ _ (by rw [List.length_map, hv]; exact hr),
        List.getElem_map, List.getD_eq_getElem _ _ (by rw [hv]; exact hr)]

theorem linear_combination_length (b : Mx) (coefs : List ℚ) (R : Nat)
    (hb : b ≠ []) (hcoefs : coefs ≠ [])
    (hcols : ∀ col ∈ b, col.length = R) :
    (linear_combination b coefs).length = R := by
  cases b with
  | nil => exact absurd rfl hb
  | cons v vs =>
    cases coefs with
    | nil => exact absurd rfl hcoefs
    | cons c cs =>
      show (lc_go (v.map (· * c)) (vs.zip cs)).length = R
      have hv : v.length = R := hcols v (List.mem_cons_self _ _)
      rw [lc_go_length (vs.zip cs) _ (fun p hp => by
          rw [List.length_map, hv,
            hcols p.1 (List.mem_cons_of_mem _ (List.of_mem_zip hp).1)])]
      rw [List.length_map, hv]

theorem WF_mul_mat {a b : Mx} {n : Nat} (hn : 0 < n)
    (hwa : WF a n n) (hwb : WF b n n) : WF (mul_mat a b) n n := by
  refine ⟨by rw [mul_mat, List.length_map, hwa.1], ?_⟩
  intro col hcol
  obtain ⟨colA, hmem, rfl⟩ := List.mem_map.1 hcol
  refine linear_combination_length b colA n ?_ ?_ hwb.2
  · intro hb0
    rw [hb0] at hwb
    have := hwb.1
    simp at this
    omega
  · intro hc0
    have := hwa.2 colA hmem
    rw [hc0] at this
    simp at this
    omega

theorem entry_mul_mat {a b : Mx} {n : Nat} (hwa : WF a n n) (hwb : WF b n n)
    (c r : Nat) (hc : c < n) (hr : r < n) :
    entry (mul_mat a b) c r =
      ((List.range n).map (fun k => entry b k r * entry a c k)).sum := by
  have hca : c < a.length := by rw [hwa.1]; exact hc
  have hcolA : (a.getD c []).length = n := hwa.2 _ (getD_col_mem a c hca)
  show ((mul_mat a b).getD c []).getD r 0 = _
  rw [show (mul_mat a b).getD c [] = linear_combination b (a.getD c []) from
    getD_map_col _ a c hca]
  rw [linear_combination_getD b (a.getD c []) r n hwb.2 hr]
  congr 1
  have hlen : (b.zip (a.getD c [])).length = n := by
    rw [List.length_zip, hwb.1, hcolA, min_self]
  apply List.ext_get (by rw [List.length_map, hlen, List.length_map,
    List.length_range])
  intro k hk1 hk2
  have hkn : k < n := by rw [List.length_map, hlen] at hk1; exact hk1
  have hkb : k < b.length := by rw [hwb.1]; exact hkn
  have hkA : k < (a.getD c []).length := by rw [hcolA]; exact hkn
  rw [List.get_eq_getElem, List.get_eq_getElem, List.getElem_map, List.getElem_map,
    List.getElem_range, List.getElem_zip]
  show (b[k]).getD r 0 * (a.getD c [])[k] = entry b k r * entry a c k
  congr 1
  · rw [← entry_get_col b k hkb r]
    rfl
  · show (a.getD c [])[k] = (a.getD c []).getD k 0
    rw [List.getD_eq_getElem _ _ hkA]

theorem range_map_sum (g : Nat → ℚ) : ∀ n : Nat,
    ((List.range n).map g).sum = (Finset.range n).sum g := by
  intro n
  induction n with
  | zero => rfl
  | succ k ih =>
    rw [List.range_succ, List.map_append, List.sum_append,
      Finset.sum_range_succ, ih]
    simp

/-- The code's matrix product corresponds to the reversed Mathlib product:
column i of mul_mat a b is the linear combination of b's columns weighted by
column i of a. -/
theorem toMat_mul_mat {a b : Mx} {n : Nat} (hwa : WF a n n) (hwb : WF b n n) :
    toMat n n (mul_mat a b) = toMat n n b * toMat n n a := by
  ext i j
  show entry (mul_mat a b) j.val i.val = _
  rw [entry_mul_mat hwa hwb j.val i.val j.2 i.2, Matrix.mul_apply,
    range_map_sum, ← Fin.sum_univ_eq_sum_range]
  rfl

theorem get_entry (M : Mx) (c r : Nat) (h1 : c < M.length)
    (h2 : r < (M.get ⟨c, h1⟩).length) :
    (M.get ⟨c, h1⟩).get ⟨r, h2⟩ = entry M c r := by
  rw [← entry_get_col M c h1 r, List.getD_eq_getElem _ _ h2]
  exact List.get_eq_getElem _ _

/-- A well-formed n×n matrix whose entries are those of the identity is the
identity matrix. -/
theorem eq_identity_of_entries {X : Mx} {n : Nat} (hwf : WF X n n)
    (h : ∀ c, c < n → ∀ r, r < n → entry X c r = if r = c then 1 else 0) :
    X = identity n := by
  have hlid : (identity n).length = n := by simp [identity]
  apply List.ext_get (by rw [hwf.1, hlid])
  intro c h1 h2
  have hc : c < n := by rw [← hwf.1]; exact h1
  have hXlen : (X.get ⟨c, h1⟩).length = n := hwf.2 _ (List.get_mem X c h1)
  have hIlen : ((identity n).get ⟨c, h2⟩).length = n :=
    (WF_identity n).2 _ (List.get_mem _ c h2)
  apply List.ext_get (by rw [hXlen, hIlen])
  intro r hr1 hr2
  have hr : r < n := by rw [← hXlen]; exact hr1
  rw [get_entry X c r h1 hr1, get_entry (identity n) c r h2 hr2]
  rw [h c hc r hr, entry_identity c r hc]

/-- Replaying a log of safe operations acts as left multiplication by the
matrix obtained by replaying the same log onto the identity. -/
theorem toMat_apply_multiple_eq {n : Nat} :
    ∀ (ops : List RowEchelonOperation), (∀ op ∈ ops, DetSafe n op) →
    ∀ m : Mx, WF m n n →
    toMat n n (apply_multiple m ops) =
      toMat n n (apply_multiple (identity n) ops) * toMat n n m := by
  intro ops
  induction ops with
  | nil =>
    intro _ m hwf
    show toMat n n m = toMat n n (identity n) * toMat n n m
    rw [toMat_identity, one_mul]
  | cons op rest ih =>
    intro hsafe m hwf
    rw [apply_multiple_cons, apply_multiple_cons]
    rw [ih (fun o ho => hsafe o (List.mem_cons_of_mem _ ho)) (apply m op)
      (WF_apply hwf op)]
    rw [ih (fun o ho => hsafe o (List.mem_cons_of_mem _ ho)) (apply (identity n) op)
      (WF_apply (WF_identity n) op)]
    rw [toMat_apply_eq_mul hwf op (hsafe op (List.mem_cons_self _ _))]
    rw [mul_assoc]

/-- C4: for every well-formed square n×n matrix of full rank (rank equal to
its size), `inverse` succeeds and multiplying the matrix by the returned
inverse via `mul_mat` yields the identity matrix of the same size — exactly,
in the exact field ℚ. -/
theorem C4_product_with_inverse_is_identity (A : Mx) (n : Nat) (hwf : WF A n n)
    (hrk : rank A = some n) :
    ∃ B, inverse A = some (Except.ok B) ∧ mul_mat A B = identity n := by
  by_cases hn : n = 0
  · subst hn
    have hA : A = [] := List.length_eq_zero.1 hwf.1
    subst hA
    exact ⟨[], rfl, rfl⟩
  obtain ⟨M, d, cs, heq, hinv, hple, hdp, hds, hdf, htail⟩ := rre_spec A n n hwf
  have hp : d.tracked_pivots.length = n := by
    unfold rank row_echelon_with_details at hrk
    rw [heq] at hrk
    simp at hrk
    exact hrk
  obtain ⟨M', d', heq', hple', hsing', hok'⟩ := inverse_spec A n hwf
  rw [heq] at heq'
  simp only [Option.some.injEq, Prod.mk.injEq] at heq'
  obtain ⟨hM, hd⟩ := heq'
  subst hM
  subst hd
  have hinvA := hok' hp
  have hn' : 0 < n := by omega
  have hlenc : cs.length = n := by rw [hinv.len]; omega
  have hfull := pairwise_lt_full hlenc hinv.mono hinv.bound
  have hdiag : ∀ j, j < n → entry M j j = 1 := by
    intro j hj
    have hjcs : j < cs.length := by omega
    have := hinv.pivot_one j hjcs
    rw [hfull j hjcs] at this
    exact this
  have hbelow : ∀ j r, j < r → r < n → entry M j r = 0 := by
    intro j r hjr hr
    have hjcs : j < cs.length := by omega
    have := hinv.below_zero j hjcs r hjr (by omega)
    rw [hfull j hjcs] at this
    exact this
  have hdone1 : ∀ c, c < 1 → ∀ r, r < n → r ≠ c → entry M c r = 0 := by
    intro c hc r hr hrc
    have hc0 : c = 0 := by omega
    subst hc0
    exact hbelow 0 r (by omega) hr
  obtain ⟨hwfY, hentY, hsafeB, hreplayB⟩ :=
    back_sub_go_spec (n - 1) 1 M (by omega) (le_refl 1) hinv.wf hdiag hbelow hdone1
  have hY : (back_sub_go M (List.range' 1 (n - 1))).1 = identity n :=
    eq_identity_of_entries hwfY hentY
  set bops := (back_sub_go M (List.range' 1 (n - 1))).2 with hbopsdef
  set ops := d.operations ++ bops with hopsdef
  have hops_safe : ∀ op ∈ ops, DetSafe n op := by
    intro op hop
    rcases List.mem_append.1 hop with h | h
    · exact hds op h
    · exact hsafeB op h
  set B := apply_multiple (identity n) ops with hBdef
  have hWFB : WF B n n := WF_apply_multiple ops (identity n) (WF_identity n)
  have hampA : apply_multiple A ops = identity n := by
    rw [hopsdef, apply_multiple_append, reduced_replay A M d heq, hreplayB, hY]
  have hTone : toMat n n (apply_multiple A ops) = toMat n n B * toMat n n A := by
    rw [hBdef]
    exact toMat_apply_multiple_eq ops hops_safe A hwf
  rw [hampA, toMat_identity] at hTone
  have hmm : toMat n n (mul_mat A B) = 1 := by
    rw [toMat_mul_mat hwf hWFB, ← hTone]
  have hWFAB : WF (mul_mat A B) n n := WF_mul_mat hn' hwf hWFB
  have hfinal : mul_mat A B = identity n := by
    apply eq_identity_of_entries hWFAB
    intro c hc r hr
    have hone := Matrix.ext_iff.2 hmm ⟨r, hr⟩ ⟨c, hc⟩
    rw [Matrix.one_apply] at hone
    rw [show entry (mul_mat A B) c r =
      toMat n n (mul_mat A B) ⟨r, hr⟩ ⟨c, hc⟩ from rfl, hone]
    by_cases hrc : r = c
    · rw [if_pos (Fin.ext hrc), if_pos hrc]
    · rw [if_neg (fun hf => hrc (congrArg Fin.val hf)), if_neg hrc]
  exact ⟨B, hinvA, hfinal⟩

/-- Witness for C4 at the invertible 2×2 matrix with columns [1,2] and
[3,4]. -/
theorem C4_product_with_inverse_is_identity_witness :
    WF [[(1 : ℚ), 2], [3, 4]] 2 2 ∧ rank [[(1 : ℚ), 2], [3, 4]] = some 2 ∧
    ∃ B, inverse [[(1 : ℚ), 2], [3, 4]] = some (Except.ok B) ∧
      mul_mat [[(1 : ℚ), 2], [3, 4]] B = identity 2 :=
  ⟨by decide,
   by norm_num [rank, row_echelon_with_details, reduced_row_echelon_form,
     rref_go, next_pivot, next_pivot_cols, next_pivot_in_col,
     nullify_rows_below_pivot, nullify_below_go, swap, divide, row_add,
     entry, rows, cols, List.range_succ, List.range'],
   C4_product_with_inverse_is_identity [[(1 : ℚ), 2], [3, 4]] 2 (by decide)
     (by norm_num [rank, row_echelon_with_details, reduced_row_echelon_form,
       rref_go, next_pivot, next_pivot_cols, next_pivot_in_col,
       nullify_rows_below_pivot, nullify_below_go, swap, divide, row_add,
       entry, rows, cols, List.range_succ, List.range'])⟩

end Lin
